import Mathlib

/-!
Verification of the backup-repository consistency checker and chain-merge
engine (`cleanVm`, `checkAliases` and their helpers).  The storage backend,
the VHD codec and the task façade are external collaborators: they appear as
an abstract environment (`Env`).  Every side effect issued against the
backend is recorded in an explicit trace of `Effect`s, so read-only claims
become statements about the trace.  File paths are plain strings; JavaScript
`Map`s / plain objects become association lists; JavaScript `Set`s become
duplicate-free lists.  The nondeterministic completion order of `asyncMap`
is modelled by quantifying over the order of the input lists.
-/

abbrev VPath := String

/-- Association-list lookup, mirroring JavaScript object / `Map` access. -/
def alookup {α : Type} (k : VPath) : List (VPath × α) → Option α
  | [] => none
  | (k', v) :: t => if k' = k then some v else alookup k t

/-- Association-list key removal, mirroring the JavaScript `delete` operator. -/
def aerase {α : Type} (k : VPath) : List (VPath × α) → List (VPath × α)
  | [] => []
  | (k', v) :: t => if k' = k then t else (k', v) :: aerase k t

/-- Association-list insert / overwrite, mirroring JavaScript property
assignment (`obj[k] = v`, `map.set(k, v)`). -/
def ainsert {α : Type} (k : VPath) (v : α) : List (VPath × α) → List (VPath × α)
  | [] => [(k, v)]
  | (k', v') :: t => if k' = k then (k, v) :: t else (k', v') :: ainsert k v t

/-- Error information carried by the exception caught around the per-VHD
validation block (source lines 203-246). -/
inductive ErrKind
  | openFail (code : Option String)
  | conflict (parent child1 child2 : VPath)
  deriving DecidableEq

/-- Log events emitted through `logWarn` (the constructor records which call
site fired and its structured payload). -/
inductive Warn
  | vhdCheckError (p : VPath) (k : ErrKind)
  | uuidDuplicated (uuid : String)
  | shouldDelete (p : VPath)
  | sameIdsDifferentContent (uuid : String)
  | orphanMergeState (statePath missingVhd : VPath)
  | parentVhdMissing (parent child : VPath)
  | unusedVhd (p : VPath)
  | aliasNonVhdTarget (aliasPath target : VPath)
  | brokenAliasTarget (aliasPath target : VPath)
  | noAliasRef (p : VPath)
  | xvaMightBeBroken (p : VPath)
  | missingXva (backup xva : VPath)
  | missingLinkedVhds (backup : VPath)
  | failedReadMetadata (p : VPath)
  | unusedXva (p : VPath)
  | unusedXvaChecksum (p : VPath)
  | incorrectBackupSize (p : VPath) (actual : Option Int) (expected : Int)
  | failedToGetSize (p : VPath)
  | failedWriteMetadata (p : VPath)
  deriving DecidableEq

/-- Operations issued against the storage backend (or recorded about it).
`openSecond p b` records that the VHD at `p` was opened with
`checkSecondFooter = b`.  `mergeOp` stands for the whole block-level merge
performed by the external `mergeVhd` codec call (which internally writes,
deletes and renames).  `unlink` and `writeFile` are the direct backend
mutations issued by this module. -/
inductive Effect
  | openSecond (p : VPath) (checkSecondFooter : Bool)
  | unlink (p : VPath)
  | writeFile (p : VPath) (newSize : Option Int)
  | mergeOp (chain : List (Option VPath))
  | warn (w : Warn)
  deriving DecidableEq

/-- Whether an effect mutates the storage backend (deletion, write, or the
merge operation, which subsumes the codec's internal rename). -/
def Effect.isMutation : Effect → Bool
  | .unlink _ => true
  | .writeFile _ _ => true
  | .mergeOp _ => true
  | _ => false

/-- Data read from a successfully opened VHD: footer UUID, disk type, and the
parent path (already resolved against the VHD's directory, as done by
`resolve('/', dirname(path), vhd.header.parentUnicodeName)`); `parent` is
only meaningful when `isDifferencing` is true. -/
structure VhdInfo where
  uuid : String
  isDifferencing : Bool
  parent : VPath
  deriving DecidableEq

/-- Result of `openVhd`: success with footer/header data, or a failure
carrying the error `code` (`some "ERR_ASSERTION"` for structural/assertion
failures, other/none for transient I/O failures). -/
inductive OpenRes
  | ok (info : VhdInfo)
  | fail (code : Option String)
  deriving DecidableEq

/-- A parsed backup metadata record (`JSON.parse` result): `mode` is `"full"`
or `"delta"`, `xva` the resolved archive path, `vhds` the resolved linked
disk paths, `size` the stored size field (absent field = `none`). -/
structure MetadataRecord where
  mode : String
  xva : VPath
  vhds : List VPath
  size : Option Int
  deriving DecidableEq

/-- The error code produced by a failed `assert` in the VHD codec. -/
def errAssertion : String := "ERR_ASSERTION"

/-- A VHD chain as assembled by `cleanVm`: a JavaScript array whose cells may
hold `undefined` (`none`), as happens for `[vhdChildren[parent], parent]`
when the parent has no registered child. -/
abbrev Chain := List (Option VPath)

/-- The abstract environment: the storage backend, the VHD codec and the
repository contents, everything `cleanVm` consumes but does not define. -/
structure Env where
  /-- openVhd(handler, path, { checkSecondFooter }) -/
  openVhd : VPath → Bool → OpenRes
  /-- a.containsAllDataOf(b), keyed by the two VHDs' paths -/
  contains : VPath → VPath → Bool
  /-- resolveVhdAlias(handler, alias) -/
  resolveAlias : VPath → VPath
  /-- isVhdFile (filename test) -/
  isVhdFileName : VPath → Bool
  /-- whether openVhd on an alias target succeeds (checkAliases probe) -/
  openAliasTargetOk : VPath → Bool
  /-- handler.list of a data repository directory -/
  dataFiles : VPath → List VPath
  /-- resolve('/', p) -/
  normalize : VPath → VPath
  /-- handler.list(vmDir) -/
  entries : List VPath
  isMetadataFileName : VPath → Bool
  isXvaFileName : VPath → Bool
  isXvaSumFileName : VPath → Bool
  isValidXva : VPath → Bool
  /-- JSON.parse(handler.readFile(json)): none = read/parse failure -/
  readMeta : VPath → Option MetadataRecord
  /-- handler.getSize: error = exception -/
  getSize : VPath → Except Unit Int
  /-- whether openVhd succeeds inside computeVhdsSize -/
  vhdOpenOk : VPath → Bool
  /-- vhd instanceof VhdFile -/
  isVhdFileKind : VPath → Bool
  /-- vhd.getSize() -/
  vhdSize : VPath → Int
  /-- size returned by the external mergeVhd for a chain -/
  mergedSize : Chain → Int
  /-- whether handler.writeFile succeeds -/
  writeOk : VPath → Bool

/-! ## Stage 3 of the pipeline: per-VHD validation, graph building, dedup
(source lines 202-246, the body of the first `asyncMap` in `cleanVm`). -/

/-- Mutable state threaded through `cleanVm`'s first scan. -/
structure ScanSt where
  vhds : List VPath
  vhdParents : List (VPath × VPath)
  vhdChildren : List (VPath × VPath)
  vhdById : List (VPath × VPath)
  trace : List Effect
  deriving DecidableEq

/-- UUID deduplication (source lines 218-236): index every disk by footer
UUID; on a duplicate compare data containment and drop the subset from the
active set.  The kept VHD (`vhdKept`) is re-indexed under the UUID. -/
def dedupStep (env : Env) (st : ScanSt) (p : VPath) (info : VhdInfo) : ScanSt :=
  match alookup info.uuid st.vhdById with
  | none => { st with vhdById := ainsert info.uuid p st.vhdById }
  | some dup =>
    let st : ScanSt := { st with trace := st.trace ++ [.warn (.uuidDuplicated info.uuid)] }
    if env.contains dup p then
      { st with trace := st.trace ++ [.warn (.shouldDelete p)],
                vhds := st.vhds.erase p,
                vhdById := ainsert info.uuid dup st.vhdById }
    else if env.contains p dup then
      { st with trace := st.trace ++ [.warn (.shouldDelete dup)],
                vhds := st.vhds.erase dup,
                vhdById := ainsert info.uuid p st.vhdById }
    else
      { st with trace := st.trace ++ [.warn (.sameIdsDifferentContent info.uuid)],
                vhdById := ainsert info.uuid p st.vhdById }

/-- Validation of one candidate VHD (source lines 203-246): open it (the
second-footer check is skipped for disks with a pending merge state), on
failure drop it from the active set and delete the file only for assertion
errors under `remove`; on success register parent/child edges (a second
child of the same parent throws, landing in the same catch) and run UUID
deduplication. -/
def checkVhd (env : Env) (remove : Bool) (interruptedKeys : List VPath)
    (st : ScanSt) (p : VPath) : ScanSt :=
  let csf := !(interruptedKeys.contains p)
  let st : ScanSt := { st with trace := st.trace ++ [.openSecond p csf] }
  match env.openVhd p csf with
  | .fail code =>
    { st with vhds := st.vhds.erase p,
              trace := st.trace ++ [.warn (.vhdCheckError p (.openFail code))] ++
                (if code = some errAssertion ∧ remove then [.unlink p] else []) }
  | .ok info =>
    if info.isDifferencing then
      let parent := info.parent
      let st1 := { st with vhdParents := ainsert p parent st.vhdParents }
      match alookup parent st1.vhdChildren with
      | some c1 =>
        { st1 with vhds := st1.vhds.erase p,
                   trace := st1.trace ++ [.warn (.vhdCheckError p (.conflict parent c1 p))] }
      | none =>
        dedupStep env { st1 with vhdChildren := ainsert parent p st1.vhdChildren } p info
    else dedupStep env st p info

/-- The whole first scan: fold `checkVhd` over the listed VHD paths. -/
def removeBrokenVhds (env : Env) (remove : Bool) (interruptedKeys : List VPath)
    (vhds0 : List VPath) : ScanSt :=
  vhds0.foldl (checkVhd env remove interruptedKeys)
    { vhds := vhds0, vhdParents := [], vhdChildren := [], vhdById := [], trace := [] }

/-! ## Removal of interrupted merge states for missing VHDs
(source lines 248-263). -/

/-- Drop every merge-state entry whose covered VHD is no longer in the active
set; its state file is deleted only under `remove`.  Entries whose VHD
survives are kept. -/
def cleanInterruptedStates (remove : Bool) (vhds : List VPath) :
    List (VPath × VPath) → List (VPath × VPath) × List Effect
  | [] => ([], [])
  | (k, sp) :: t =>
    let (r, es) := cleanInterruptedStates remove vhds t
    if vhds.contains k then ((k, sp) :: r, es)
    else (r, (Effect.warn (.orphanMergeState sp k) ::
              (if remove then [Effect.unlink sp] else [])) ++ es)

/-! ## checkAliases (source lines 124-181). -/

/-- Processing of one alias (source lines 130-165): resolve the target; a
non-VHD target is warned about and (under `remove`) both files are deleted;
an unreadable target is warned about and (under `remove`) the alias is
deleted; a healthy target's canonical path is collected. -/
def checkAliasOne (env : Env) (remove : Bool) (acc : List VPath × List Effect)
    (aliasPath : VPath) : List VPath × List Effect :=
  let (found, es) := acc
  let target := env.resolveAlias aliasPath
  if !env.isVhdFileName target then
    (found, es ++ [.warn (.aliasNonVhdTarget aliasPath target)] ++
      (if remove then [.unlink target, .unlink aliasPath] else []))
  else if env.openAliasTargetOk target then
    (found ++ [env.normalize target], es)
  else
    (found, es ++ [.warn (.brokenAliasTarget aliasPath target)] ++
      (if remove then [.unlink aliasPath] else []))

/-- checkAliases: validate each alias, then flag (and under `remove` delete)
every VHD in the data repository that no alias references. -/
def checkAliases (env : Env) (remove : Bool) (aliasPaths : List VPath)
    (targetDataRepository : VPath) : List Effect :=
  let r := aliasPaths.foldl (checkAliasOne env remove) ([], [])
  r.2 ++ (env.dataFiles targetDataRepository).foldl
    (fun acc p =>
      if r.1.contains p then acc
      else acc ++ [.warn (.noAliasRef p)] ++ (if remove then [.unlink p] else []))
    []

/-! ## Orphan pruning (source lines 271-307). -/

/-- State of the orphan-pruning walk: the (mutated) parent map, the active
VHD set and the effect trace. -/
structure OrphanSt where
  parents : List (VPath × VPath)
  vhds : List VPath
  trace : List Effect
  deriving DecidableEq

theorem aerase_length_lt {α : Type} {k : VPath} {l : List (VPath × α)} {v : α}
    (h : alookup k l = some v) : (aerase k l).length < l.length := by
  induction l with
  | nil => simp [alookup] at h
  | cons hd t ih =>
    obtain ⟨k', v'⟩ := hd
    by_cases hk : k' = k
    · simp [aerase, hk]
    · simp only [alookup, if_neg hk] at h
      simpa [aerase, hk, Nat.succ_lt_succ_iff] using ih h

/-- deleteIfOrphan (source lines 276-296): if the VHD still has a registered
parent, unregister it (memoisation), recurse into the parent first, then
drop the VHD from the active set when the parent is not (or no longer) in
it; the file deletion is issued only under `remove`. -/
def deleteIfOrphan (remove : Bool) (st : OrphanSt) (p : VPath) : OrphanSt :=
  match h : alookup p st.parents with
  | none => st
  | some q =>
    let st2 := deleteIfOrphan remove { st with parents := aerase p st.parents } q
    if st2.vhds.contains q then st2
    else { st2 with vhds := st2.vhds.erase p,
                    trace := st2.trace ++ [.warn (.parentVhdMissing q p)] ++
                      (if remove then [.unlink p] else []) }
termination_by st.parents.length
decreasing_by simpa using aerase_length_lt h

/-- The `for (const child in vhdParents)` loop (source lines 302-304).
Visiting a key already deleted from the map is a no-op, so iterating over
the original key list is equivalent to JavaScript's live `for...in`. -/
def pruneOrphans (remove : Bool) (parents0 : List (VPath × VPath))
    (vhds : List VPath) : OrphanSt :=
  (parents0.map Prod.fst).foldl (deleteIfOrphan remove)
    { parents := parents0, vhds := vhds, trace := [] }

/-! ## Metadata cross-referencing (source lines 309-385). -/

/-- State of the metadata cross-reference pass. -/
structure CrossSt where
  jsons : List VPath
  unusedVhds : List VPath
  unusedXvas : List VPath
  vhdsToJSons : List (VPath × VPath)
  trace : List Effect
  deriving DecidableEq

/-- Processing of one metadata record (source lines 338-385): a parse
failure drops the record; a `full` record marks its archive used or, when
the archive is missing, is deleted under `remove`; a `delta` record with all
linked disks present marks them used and records the owning metadata file,
otherwise the whole record is incomplete and deleted under `remove`. -/
def crossRefOne (env : Env) (remove : Bool) (vhds xvas : List VPath)
    (st : CrossSt) (j : VPath) : CrossSt :=
  match env.readMeta j with
  | none =>
    { st with jsons := st.jsons.erase j,
              trace := st.trace ++ [.warn (.failedReadMetadata j)] }
  | some m =>
    if m.mode = "full" then
      if xvas.contains m.xva then { st with unusedXvas := st.unusedXvas.erase m.xva }
      else
        { st with trace := st.trace ++ [.warn (.missingXva j m.xva)] ++
                    (if remove then [.unlink j] else []),
                  jsons := if remove then st.jsons.erase j else st.jsons }
    else if m.mode = "delta" then
      if m.vhds.all (fun v => vhds.contains v) then
        { st with unusedVhds := m.vhds.foldl (fun acc v => acc.erase v) st.unusedVhds,
                  vhdsToJSons := m.vhds.foldl (fun acc v => ainsert v j acc) st.vhdsToJSons }
      else
        { st with trace := st.trace ++ [.warn (.missingLinkedVhds j)] ++
                    (if remove then [.unlink j] else []),
                  jsons := if remove then st.jsons.erase j else st.jsons }
    else st

/-! ## Chain computation (source lines 388-441). -/

/-- State of the chain computation: `memo` is `vhdChainsToMerge` (a key may
be present with value `none`, as a JavaScript property set to `undefined`),
`toCheck` the shrinking probe set, `trace` the effects. -/
structure ChainSt where
  memo : List (VPath × Option Chain)
  toCheck : List VPath
  trace : List Effect
  deriving DecidableEq

/-- The fall-through of `getUsedChildChainOrDelete` (source lines 420-424):
warn about the unused VHD and delete it under `remove`. -/
def delUnused (remove : Bool) (st : ChainSt) (v : VPath) : ChainSt :=
  { st with trace := st.trace ++ [.warn (.unusedVhd v)] ++
      (if remove then [.unlink v] else []) }

/-- getUsedChildChainOrDelete (source lines 397-425), with explicit fuel for
the structurally unbounded child-pointer recursion: a memoised chain is
returned (and un-memoised); a used VHD terminates the chain as `[vhd]`; an
unused VHD with a child prepends itself to the child's chain; otherwise the
unused VHD is deleted and no chain is produced.  `none` (outer) models
nontermination of the JavaScript recursion, never reached with sufficient
fuel. -/
def getUsedChildChainOrDelete (children : VPath → Option VPath)
    (unused : List VPath) (remove : Bool) :
    Nat → ChainSt → VPath → Option (ChainSt × Option Chain)
  | 0, _, _ => none
  | fuel+1, st, v =>
    match alookup v st.memo with
    | some c => some ({ st with memo := aerase v st.memo }, c)
    | none =>
      if !unused.contains v then some (st, some [some v])
      else
        match children v with
        | some c =>
          match getUsedChildChainOrDelete children unused remove fuel
              { st with toCheck := st.toCheck.erase v } c with
          | none => none
          | some (st', some ch) => some (st', some (some v :: ch))
          | some (st', none) => some (delUnused remove st' v, none)
        | none => some (delUnused remove { st with toCheck := st.toCheck.erase v } v, none)

/-- The `toCheck.forEach` loop (source lines 427-429): visit each initially
unused VHD that is still in `toCheck`, and memoise the chain computed for
it (possibly `undefined`). -/
def chainLoop (children : VPath → Option VPath) (unused : List VPath)
    (remove : Bool) (fuel : Nat) : List VPath → ChainSt → Option ChainSt
  | [], st => some st
  | v :: t, st =>
    if st.toCheck.contains v then
      match getUsedChildChainOrDelete children unused remove fuel st v with
      | none => none
      | some (st', c) =>
        chainLoop children unused remove fuel t { st' with memo := ainsert v c st'.memo }
    else chainLoop children unused remove fuel t st

/-- Result of the whole chain-computation block. -/
structure ChainsOut where
  memo : List (VPath × Option Chain)
  toMerge : List Chain
  trace : List Effect
  deriving DecidableEq

/-- The chain-computation block (source lines 388-441): run the usage-driven
loop, then force a 2-element chain `[vhdChildren[parent], parent]` for every
surviving interrupted-merge parent (source lines 431-434), and collect the
defined chains into `toMerge`. -/
def computeChains (children : VPath → Option VPath) (unused : List VPath)
    (interruptedKeys : List VPath) (remove : Bool) (fuel : Nat) :
    Option ChainsOut :=
  match chainLoop children unused remove fuel unused
      { memo := [], toCheck := unused, trace := [] } with
  | none => none
  | some st =>
    let memo2 := interruptedKeys.foldl
      (fun m p => ainsert p (some [children p, some p]) m) st.memo
    some { memo := memo2,
           toMerge := (memo2.map Prod.snd).filterMap id,
           trace := st.trace }

/-! ## Merge execution (source lines 51-84 and 443-452). -/

/-- mergeVhdChain (source lines 51-84): assert the chain has an ancestor and
at least one child, then — only when `merge` is enabled — run the external
block-level merge and return the merged size.  Without `merge` nothing is
done and `undefined` is returned. -/
def mergeVhdChain (env : Env) (_remove merge : Bool) (chain : Chain) :
    Except String (Option Int × List Effect) :=
  if chain.length < 2 then .error "mergeVhdChain: assert chain.length >= 2"
  else .ok (if merge then (some (env.mergedSize chain), [.mergeOp chain]) else (none, []))

/-- doMerge (source lines 444-452): merge every chain; when a merge actually
happened, record the metadata file owning the chain's first disk.  (The
JavaScript lookup `vhdsToJSons[chain[0]]` with an undefined head or an
unknown disk records nothing usable; that is modelled as recording no
metadata file.) -/
def doMerge (env : Env) (remove merge : Bool) (vhdsToJSons : List (VPath × VPath)) :
    List Chain → Except String (List VPath × List Effect)
  | [] => .ok ([], [])
  | ch :: t =>
    match mergeVhdChain env remove merge ch with
    | .error e => .error e
    | .ok (res, es) =>
      match doMerge env remove merge vhdsToJSons t with
      | .error e => .error e
      | .ok (mj, es') =>
        let own : List VPath :=
          match res, ch.head? with
          | some _, some (some hp) =>
            (match alookup hp vhdsToJSons with | some j => [j] | none => [])
          | _, _ => []
        .ok (own ++ mj, es ++ es')

/-! ## Size reconciliation (source lines 17-33 and 476-524). -/

/-- shouldComputeVhdsSize (source lines 20-22): sizes are only computed when
every VHD is a VhdFile. -/
def shouldComputeVhdsSize (env : Env) (paths : List VPath) : Bool :=
  paths.all env.isVhdFileKind

/-- computeVhdsSize (source lines 24-33): open every VHD (a failure throws),
and return the summed sizes only when all of them are VhdFiles, `undefined`
(`some none` inner) otherwise. -/
def computeVhdsSize (env : Env) (paths : List VPath) : Except Unit (Option Int) :=
  if paths.all env.vhdOpenOk then
    .ok (if shouldComputeVhdsSize env paths then some (paths.map env.vhdSize).sum else none)
  else .error ()

/-- The final size-update step (source lines 515-523): when the record's
disks were merged this run, or fix-metadata mode is on, and the stored size
disagrees with the recomputed one, write the updated record (a write failure
is only warned about). -/
def writeStep (env : Env) (fixMetadata merged : Bool) (j : VPath)
    (m : MetadataRecord) (fsSize : Option Int) (es : List Effect) : List Effect :=
  if (merged ∨ fixMetadata) ∧ m.size ≠ fsSize then
    es ++ [.writeFile j fsSize] ++
      (if env.writeOk j then [] else [.warn (.failedWriteMetadata j)])
  else es

/-- Reconciliation of one surviving metadata record (source lines 479-524):
recompute the on-disk size (`full`: archive size; `delta`: summed VHD sizes,
silently skipped when not cheaply computable); a size error only warns; a
non-merged `delta` mismatch warns; the update itself is `writeStep`.  The
re-read of the metadata file is not guarded by a try/catch in the source, so
a parse failure propagates (`Except.error`). -/
def reconcileOne (env : Env) (fixMetadata : Bool) (mergedJsons : List VPath)
    (j : VPath) : Except Unit (List Effect) :=
  match env.readMeta j with
  | none => .error ()
  | some m =>
    let merged := mergedJsons.contains j
    if m.mode = "full" then
      match env.getSize m.xva with
      | .error _ => .ok [.warn (.failedToGetSize j)]
      | .ok s => .ok (writeStep env fixMetadata merged j m (some s) [])
    else if m.mode = "delta" then
      match computeVhdsSize env m.vhds with
      | .error _ => .ok [.warn (.failedToGetSize j)]
      | .ok none => .ok []
      | .ok (some s) =>
        let es := if !merged ∧ m.size ≠ some s
          then [Effect.warn (.incorrectBackupSize j m.size s)] else []
        .ok (writeStep env fixMetadata merged j m (some s) es)
    else .ok (writeStep env fixMetadata merged j m none [])

/-- The reconciliation pass over all surviving metadata records. -/
def reconcile (env : Env) (fixMetadata : Bool) (mergedJsons : List VPath) :
    List VPath → Except Unit (List Effect)
  | [] => .ok []
  | j :: t =>
    match reconcileOne env fixMetadata mergedJsons j with
    | .error e => .error e
    | .ok es =>
      match reconcile env fixMetadata mergedJsons t with
      | .error e => .error e
      | .ok es' => .ok (es ++ es')

/-! ## The composed cleanVm (source lines 187-530). -/

/-- The value returned by `cleanVm` plus the data needed to state claims:
the full effect trace, the chain set handed to the merger, the summary flag
and the final active VHD set. -/
structure CleanResult where
  trace : List Effect
  toMerge : List Chain
  summaryMerge : Bool
  vhds : List VPath
  deriving DecidableEq

/-- cleanVm: the composed pipeline.  `vhds0`, `interrupted0` and `aliasDirs`
are the output of `listVhds`; `fuel` bounds the chain-following recursion
(the JavaScript recursion is unbounded; insufficient fuel yields an error,
never reached on terminating inputs).  An assertion failure in
`mergeVhdChain` or a metadata re-read failure aborts the run, as the
corresponding rejected promise does. -/
def cleanVm (env : Env) (vhds0 : List VPath) (interrupted0 : List (VPath × VPath))
    (aliasDirs : List (VPath × List VPath)) (fixMetadata remove merge : Bool)
    (fuel : Nat) : Except String CleanResult :=
  let st2 := removeBrokenVhds env remove (interrupted0.map Prod.fst) vhds0
  let cis := cleanInterruptedStates remove st2.vhds interrupted0
  let es4 := aliasDirs.foldl
    (fun acc d => acc ++ checkAliases env remove d.2 (d.1 ++ "/data")) []
  let st5 := pruneOrphans remove st2.vhdParents st2.vhds
  let jsons0 := env.entries.filter env.isMetadataFileName
  let rest1 := env.entries.filter (fun p => !env.isMetadataFileName p)
  let xvas := rest1.filter env.isXvaFileName
  let xvaSums := (rest1.filter (fun p => !env.isXvaFileName p)).filter env.isXvaSumFileName
  let es7 := xvas.foldl
    (fun acc x => if env.isValidXva x then acc
      else acc ++ [Effect.warn (.xvaMightBeBroken x)]) []
  let stX := jsons0.foldl (crossRefOne env remove st5.vhds xvas)
    { jsons := jsons0, unusedVhds := st5.vhds, unusedXvas := xvas,
      vhdsToJSons := [], trace := [] }
  match computeChains (fun p => alookup p st2.vhdChildren) stX.unusedVhds
      (cis.1.map Prod.fst) remove fuel with
  | none => .error "chain computation did not terminate within fuel"
  | some chains =>
    match doMerge env remove merge stX.vhdsToJSons chains.toMerge with
    | .error e => .error e
    | .ok (mergedJsons, esM) =>
      let esX := stX.unusedXvas.foldl
        (fun acc x => acc ++ [Effect.warn (.unusedXva x)] ++
          (if remove then [.unlink x] else [])) []
      let esS := xvaSums.foldl
        (fun acc s =>
          if xvas.contains (s.dropRight ".checksum".length) then acc
          else acc ++ [Effect.warn (.unusedXvaChecksum s)] ++
            (if remove then [.unlink s] else [])) []
      match reconcile env fixMetadata mergedJsons stX.jsons with
      | .error _ => .error "metadata re-read failed during size reconciliation"
      | .ok esR =>
        .ok { trace := st2.trace ++ cis.2 ++ es4 ++ st5.trace ++ es7 ++
                stX.trace ++ chains.trace ++ esM ++ esX ++ esS ++ esR,
              toMerge := chains.toMerge,
              summaryMerge := chains.toMerge.length != 0,
              vhds := st5.vhds }

/-! ## Association-list lemmas. -/

/-- Keys of an association list are pairwise distinct (JavaScript objects
and `Map`s cannot hold a key twice). -/
def NodupKeys {α : Type} (l : List (VPath × α)) : Prop := (l.map Prod.fst).Nodup

theorem alookup_ainsert_self {α : Type} (k : VPath) (v : α) (l : List (VPath × α)) :
    alookup k (ainsert k v l) = some v := by
  induction l with
  | nil => simp [ainsert, alookup]
  | cons hd t ih =>
    obtain ⟨k', v'⟩ := hd
    by_cases hk : k' = k
    · simp [ainsert, hk, alookup]
    · simp [ainsert, hk, alookup, ih]

theorem alookup_ainsert_ne {α : Type} {k q : VPath} (v : α) (l : List (VPath × α))
    (h : k ≠ q) : alookup q (ainsert k v l) = alookup q l := by
  induction l with
  | nil => simp [ainsert, alookup, h]
  | cons hd t ih =>
    obtain ⟨k', v'⟩ := hd
    by_cases hk : k' = k
    · subst hk; simp [ainsert, alookup, h]
    · simp only [ainsert, if_neg hk, alookup]
      by_cases hq : k' = q <;> simp [hq, ih]

theorem alookup_aerase_ne {α : Type} {k q : VPath} (l : List (VPath × α))
    (h : k ≠ q) : alookup q (aerase k l) = alookup q l := by
  induction l with
  | nil => simp [aerase]
  | cons hd t ih =>
    obtain ⟨k', v'⟩ := hd
    by_cases hk : k' = k
    · subst hk; simp [aerase, alookup, h]
    · simp only [aerase, if_neg hk, alookup]
      by_cases hq : k' = q <;> simp [hq, ih]

theorem alookup_eq_none_iff {α : Type} (k : VPath) (l : List (VPath × α)) :
    alookup k l = none ↔ k ∉ l.map Prod.fst := by
  induction l with
  | nil => simp [alookup]
  | cons hd t ih =>
    obtain ⟨k', v'⟩ := hd
    by_cases hk : k' = k
    · subst hk; simp [alookup]
    · simp [alookup, hk, ih, Ne.symm hk]

theorem mem_keys_of_alookup {α : Type} {k : VPath} {l : List (VPath × α)} {v : α}
    (h : alookup k l = some v) : k ∈ l.map Prod.fst := by
  by_contra hk
  rw [← alookup_eq_none_iff] at hk
  rw [hk] at h
  exact Option.noConfusion h

theorem alookup_aerase_self {α : Type} {k : VPath} {l : List (VPath × α)}
    (h : NodupKeys l) : alookup k (aerase k l) = none := by
  induction l with
  | nil => simp [aerase, alookup]
  | cons hd t ih =>
    obtain ⟨k', v'⟩ := hd
    obtain ⟨h1, h2⟩ := List.nodup_cons.mp h
    by_cases hk : k' = k
    · subst hk
      simp only [aerase, if_pos rfl]
      rw [alookup_eq_none_iff]
      simpa using h1
    · simp [aerase, hk, alookup, ih h2]

theorem mem_of_alookup {α : Type} {k : VPath} {l : List (VPath × α)} {v : α}
    (h : alookup k l = some v) : (k, v) ∈ l := by
  induction l with
  | nil => simp [alookup] at h
  | cons hd t ih =>
    obtain ⟨k', v'⟩ := hd
    by_cases hk : k' = k
    · subst hk
      have hv : v' = v := by simpa [alookup] using h
      subst hv
      exact List.mem_cons_self _ _
    · simp only [alookup, if_neg hk] at h
      exact List.mem_cons_of_mem _ (ih h)

theorem mem_aerase {α : Type} {e : VPath × α} {k : VPath} {l : List (VPath × α)}
    (h : e ∈ aerase k l) : e ∈ l := by
  induction l with
  | nil => simpa [aerase] using h
  | cons hd t ih =>
    obtain ⟨k', v'⟩ := hd
    by_cases hk : k' = k
    · subst hk
      simp only [aerase, if_pos rfl] at h
      exact List.mem_cons_of_mem _ h
    · simp only [aerase, if_neg hk] at h
      rcases List.mem_cons.mp h with h | h
      · exact h ▸ List.mem_cons_self _ _
      · exact List.mem_cons_of_mem _ (ih h)

theorem mem_ainsert {α : Type} {e : VPath × α} {k : VPath} {v : α}
    {l : List (VPath × α)} (h : e ∈ ainsert k v l) : e = (k, v) ∨ e ∈ l := by
  induction l with
  | nil => simpa [ainsert] using h
  | cons hd t ih =>
    obtain ⟨k', v'⟩ := hd
    by_cases hk : k' = k
    · subst hk
      simp only [ainsert, if_pos rfl] at h
      rcases List.mem_cons.mp h with h | h
      · exact Or.inl h
      · exact Or.inr (List.mem_cons_of_mem _ h)
    · simp only [ainsert, if_neg hk] at h
      rcases List.mem_cons.mp h with h | h
      · exact Or.inr (h ▸ List.mem_cons_self _ _)
      · rcases ih h with h | h
        · exact Or.inl h
        · exact Or.inr (List.mem_cons_of_mem _ h)

theorem nodupKeys_aerase {α : Type} {k : VPath} {l : List (VPath × α)}
    (h : NodupKeys l) : NodupKeys (aerase k l) := by
  induction l with
  | nil => simpa [aerase] using h
  | cons hd t ih =>
    obtain ⟨k', v'⟩ := hd
    obtain ⟨h1, h2⟩ := List.nodup_cons.mp h
    by_cases hk : k' = k
    · subst hk; simpa [aerase] using h2
    · simp only [NodupKeys, aerase, if_neg hk, List.map_cons]
      refine List.nodup_cons.mpr ⟨?_, ih h2⟩
      intro hmem
      simp only [List.mem_map] at hmem
      obtain ⟨e, he, hke⟩ := hmem
      exact h1 (List.mem_map.mpr ⟨e, mem_aerase he, hke⟩)

theorem nodupKeys_ainsert {α : Type} {k : VPath} {v : α} {l : List (VPath × α)}
    (h : NodupKeys l) : NodupKeys (ainsert k v l) := by
  induction l with
  | nil => simp [ainsert, NodupKeys]
  | cons hd t ih =>
    obtain ⟨k', v'⟩ := hd
    obtain ⟨h1, h2⟩ := List.nodup_cons.mp h
    by_cases hk : k' = k
    · subst hk
      simp only [NodupKeys, ainsert, if_pos rfl, List.map_cons]
      exact List.nodup_cons.mpr ⟨by simpa using h1, h2⟩
    · simp only [NodupKeys, ainsert, if_neg hk, List.map_cons]
      refine List.nodup_cons.mpr ⟨?_, ih h2⟩
      intro hmem
      simp only [List.mem_map] at hmem
      obtain ⟨e, he, hke⟩ := hmem
      rcases mem_ainsert he with rfl | he2
      · exact hk (by simpa using hke.symm)
      · exact h1 (List.mem_map.mpr ⟨e, he2, hke⟩)

theorem alookup_of_mem_nodup {α : Type} {k : VPath} {v : α} {l : List (VPath × α)}
    (hn : NodupKeys l) (h : (k, v) ∈ l) : alookup k l = some v := by
  induction l with
  | nil => simp at h
  | cons hd t ih =>
    obtain ⟨k', v'⟩ := hd
    obtain ⟨h1, h2⟩ := List.nodup_cons.mp hn
    rcases List.mem_cons.mp h with h | h
    · obtain ⟨rfl, rfl⟩ := Prod.mk.injEq .. ▸ h
      simp [alookup]
    · have hk : k' ≠ k := by
        rintro rfl
        exact h1 (List.mem_map.mpr ⟨(k', v), h, rfl⟩)
      simp [alookup, hk, ih h2 h]

/-! ## Mutation-freedom helpers. -/

/-- No effect in the list mutates the storage backend. -/
def MutFree (l : List Effect) : Prop := ∀ e ∈ l, e.isMutation = false

theorem mutFree_nil : MutFree [] := by intro e he; simp at he

theorem mutFree_append {a b : List Effect} (ha : MutFree a) (hb : MutFree b) :
    MutFree (a ++ b) := by
  intro e he
  rcases List.mem_append.mp he with h | h
  · exact ha e h
  · exact hb e h

/-! ## Behaviour of the per-VHD validation step. -/

theorem dedupStep_spec (env : Env) (st : ScanSt) (p dup : VPath) (info : VhdInfo)
    (hdup : alookup info.uuid st.vhdById = some dup)
    (hnodup : st.vhds.Nodup) (hne : dup ≠ p)
    (hp : p ∈ st.vhds) (hd : dup ∈ st.vhds) :
    (env.contains dup p = true →
        p ∉ (dedupStep env st p info).vhds ∧ dup ∈ (dedupStep env st p info).vhds ∧
        alookup info.uuid (dedupStep env st p info).vhdById = some dup) ∧
    (env.contains dup p = false → env.contains p dup = true →
        dup ∉ (dedupStep env st p info).vhds ∧ p ∈ (dedupStep env st p info).vhds ∧
        alookup info.uuid (dedupStep env st p info).vhdById = some p) ∧
    (env.contains dup p = false → env.contains p dup = false →
        (dedupStep env st p info).vhds = st.vhds ∧
        (dedupStep env st p info).trace =
          st.trace ++ [.warn (.uuidDuplicated info.uuid),
                       .warn (.sameIdsDifferentContent info.uuid)]) := by
  refine ⟨?_, ?_, ?_⟩
  · intro h1
    simp only [dedupStep, hdup, h1, if_pos]
    refine ⟨hnodup.not_mem_erase, ?_, alookup_ainsert_self _ _ _⟩
    exact (List.mem_erase_of_ne hne).mpr hd
  · intro h1 h2
    simp only [dedupStep, hdup, h1, h2, Bool.false_eq_true, if_neg, if_pos,
      Bool.true_eq_false]
    refine ⟨hnodup.not_mem_erase, ?_, alookup_ainsert_self _ _ _⟩
    exact (List.mem_erase_of_ne (Ne.symm hne)).mpr hp
  · intro h1 h2
    simp only [dedupStep, hdup, h1, h2, Bool.false_eq_true, if_neg]
    exact ⟨rfl, by simp⟩

theorem checkVhd_reduces_to_dedup (env : Env) (remove : Bool) (ik : List VPath)
    (st : ScanSt) (p : VPath) (info : VhdInfo)
    (hopen : env.openVhd p (!(ik.contains p)) = .ok info)
    (hnc : info.isDifferencing = true → alookup info.parent st.vhdChildren = none) :
    (checkVhd env remove ik st p).vhds =
      (dedupStep env { st with trace := st.trace ++ [.openSecond p (!(ik.contains p))] }
        p info).vhds ∧
    (checkVhd env remove ik st p).vhdById =
      (dedupStep env { st with trace := st.trace ++ [.openSecond p (!(ik.contains p))] }
        p info).vhdById ∧
    (checkVhd env remove ik st p).trace =
      (dedupStep env { st with trace := st.trace ++ [.openSecond p (!(ik.contains p))] }
        p info).trace := by
  by_cases hdiff : info.isDifferencing = true
  · have hn := hnc hdiff
    simp only [checkVhd, hopen, hdiff, if_pos]
    have : alookup info.parent
        ({ st with vhdParents := ainsert p info.parent st.vhdParents,
                   trace := st.trace ++ [Effect.openSecond p (!(ik.contains p))] } :
          ScanSt).vhdChildren = none := hn
    rw [this]
    simp only [dedupStep]
    cases alookup info.uuid st.vhdById with
    | none => exact ⟨rfl, rfl, rfl⟩
    | some dup =>
      by_cases h1 : env.contains dup p <;> by_cases h2 : env.contains p dup <;>
        simp [h1, h2]
  · simp only [Bool.not_eq_true] at hdiff
    simp only [checkVhd, hopen, hdiff, Bool.false_eq_true, if_false]
    refine ⟨?_, ?_, ?_⟩ <;> trivial

/-- C5: when a candidate disk shares its UUID with an already-indexed
distinct disk, the validation step keeps the byte-for-byte superset (leaving
it indexed under the UUID) and removes the subset from the active set; when
neither content contains the other only warnings are logged and the active
set is unchanged.  Nothing in the step reads a file modification time (the
environment exposes none), so the outcome is independent of file age. -/
theorem cleanVm_uuid_dedup (env : Env) (remove : Bool) (ik : List VPath)
    (st : ScanSt) (p dup : VPath) (info : VhdInfo)
    (hopen : env.openVhd p (!(ik.contains p)) = .ok info)
    (hnc : info.isDifferencing = true → alookup info.parent st.vhdChildren = none)
    (hdup : alookup info.uuid st.vhdById = some dup)
    (hnodup : st.vhds.Nodup) (hne : dup ≠ p)
    (hp : p ∈ st.vhds) (hd : dup ∈ st.vhds) :
    (env.contains dup p = true →
        p ∉ (checkVhd env remove ik st p).vhds ∧
        dup ∈ (checkVhd env remove ik st p).vhds ∧
        alookup info.uuid (checkVhd env remove ik st p).vhdById = some dup) ∧
    (env.contains dup p = false → env.contains p dup = true →
        dup ∉ (checkVhd env remove ik st p).vhds ∧
        p ∈ (checkVhd env remove ik st p).vhds ∧
        alookup info.uuid (checkVhd env remove ik st p).vhdById = some p) ∧
    (env.contains dup p = false → env.contains p dup = false →
        (checkVhd env remove ik st p).vhds = st.vhds ∧
        Effect.warn (.sameIdsDifferentContent info.uuid) ∈
          (checkVhd env remove ik st p).trace ∧
        MutFree ((checkVhd env remove ik st p).trace.drop st.trace.length)) := by
  obtain ⟨hv, hb, ht⟩ := checkVhd_reduces_to_dedup env remove ik st p info hopen hnc
  set sti : ScanSt :=
    { st with trace := st.trace ++ [.openSecond p (!(ik.contains p))] } with hsti
  have hdup2 : alookup info.uuid sti.vhdById = some dup := hdup
  have hnodup2 : sti.vhds.Nodup := hnodup
  have hp2 : p ∈ sti.vhds := hp
  have hd2 : dup ∈ sti.vhds := hd
  obtain ⟨c1, c2, c3⟩ := dedupStep_spec env sti p dup info hdup2 hnodup2 hne hp2 hd2
  refine ⟨?_, ?_, ?_⟩
  · intro h1
    obtain ⟨a1, a2, a3⟩ := c1 h1
    exact ⟨hv ▸ a1, hv ▸ a2, hb ▸ a3⟩
  · intro h1 h2
    obtain ⟨a1, a2, a3⟩ := c2 h1 h2
    exact ⟨hv ▸ a1, hv ▸ a2, hb ▸ a3⟩
  · intro h1 h2
    obtain ⟨a1, a2⟩ := c3 h1 h2
    refine ⟨hv ▸ a1, ?_, ?_⟩
    · rw [ht, a2]
      simp [hsti]
    · rw [ht, a2]
      simp only [hsti]
      rw [List.append_assoc, List.drop_left]
      intro e he
      have he2 : e = Effect.openSecond p (!(ik.contains p)) ∨
          e = Effect.warn (Warn.uuidDuplicated info.uuid) ∨
          e = Effect.warn (Warn.sameIdsDifferentContent info.uuid) := by
        simpa using he
      rcases he2 with rfl | rfl | rfl <;> rfl

/-- C7: the per-VHD validation opens the disk with the secondary-footer
check disabled exactly when the disk has a pending interrupted-merge marker;
any open failure removes the disk from the active set; the file itself is
deleted exactly when the failure carries the assertion error code and repair
is enabled, so transient I/O failures leave the file untouched. -/
theorem cleanVm_open_failure (env : Env) (remove : Bool) (ik : List VPath)
    (st : ScanSt) (p : VPath) (code : Option String)
    (htr : st.trace = [])
    (hnodup : st.vhds.Nodup)
    (hfail : env.openVhd p (!(ik.contains p)) = .fail code) :
    (∀ b : Bool, Effect.openSecond p b ∈ (checkVhd env remove ik st p).trace ↔
        b = !(ik.contains p)) ∧
    p ∉ (checkVhd env remove ik st p).vhds ∧
    (Effect.unlink p ∈ (checkVhd env remove ik st p).trace ↔
        (code = some errAssertion ∧ remove = true)) := by
  have hcv : checkVhd env remove ik st p =
      { st with vhds := st.vhds.erase p,
                trace := st.trace ++ [.openSecond p (!(ik.contains p))] ++
                  [.warn (.vhdCheckError p (.openFail code))] ++
                  (if code = some errAssertion ∧ remove then [.unlink p] else []) } := by
    simp only [checkVhd, hfail]
  refine ⟨?_, ?_, ?_⟩
  · intro b
    rw [hcv]
    by_cases hc : code = some errAssertion ∧ remove = true <;>
      simp [htr, hc, eq_comm]
  · rw [hcv]
    exact hnodup.not_mem_erase
  · rw [hcv]
    by_cases hc : code = some errAssertion ∧ remove = true <;>
      simp [htr, hc]

/-- C8: when an opened differencing disk's parent already has a registered
child, the conflict is recorded as an error naming both children (via the
thrown error logged by the catch handler), the first child stays registered,
and no file deletion is issued for either child — even with repair enabled —
because the thrown conflict error does not carry the assertion code.  The
second child is dropped from the active set, but only together with the
logged warning, never silently. -/
theorem cleanVm_multiple_children_conflict (env : Env) (remove : Bool)
    (ik : List VPath) (st : ScanSt) (p c1 : VPath) (info : VhdInfo)
    (htr : st.trace = [])
    (hnodup : st.vhds.Nodup)
    (hopen : env.openVhd p (!(ik.contains p)) = .ok info)
    (hdiff : info.isDifferencing = true)
    (hc : alookup info.parent st.vhdChildren = some c1) :
    Effect.warn (.vhdCheckError p (.conflict info.parent c1 p)) ∈
      (checkVhd env remove ik st p).trace ∧
    (∀ x, Effect.unlink x ∉ (checkVhd env remove ik st p).trace) ∧
    alookup info.parent (checkVhd env remove ik st p).vhdChildren = some c1 ∧
    alookup p (checkVhd env remove ik st p).vhdParents = some info.parent ∧
    p ∉ (checkVhd env remove ik st p).vhds := by
  have hcv : checkVhd env remove ik st p =
      { st with vhds := st.vhds.erase p,
                vhdParents := ainsert p info.parent st.vhdParents,
                trace := st.trace ++ [.openSecond p (!(ik.contains p))] ++
                  [.warn (.vhdCheckError p (.conflict info.parent c1 p))] } := by
    simp only [checkVhd, hopen, hdiff, if_pos]
    have : alookup info.parent
        ({ st with vhdParents := ainsert p info.parent st.vhdParents,
                   trace := st.trace ++ [Effect.openSecond p (!(ik.contains p))] } :
          ScanSt).vhdChildren = some c1 := hc
    rw [this]
  refine ⟨?_, ?_, ?_, ?_, ?_⟩
  · rw [hcv]; simp [htr]
  · intro x; rw [hcv]; simp [htr]
  · rw [hcv]; exact hc
  · rw [hcv]; exact alookup_ainsert_self _ _ _
  · rw [hcv]; exact hnodup.not_mem_erase

theorem cis_mem (remove : Bool) (vhds : List VPath) (l : List (VPath × VPath)) :
    ∀ e ∈ (cleanInterruptedStates remove vhds l).1,
      vhds.contains e.1 = true ∧ e ∈ l := by
  induction l with
  | nil => intro e he; simp [cleanInterruptedStates] at he
  | cons hd t ih =>
    obtain ⟨k', sp'⟩ := hd
    intro e he
    simp only [cleanInterruptedStates] at he
    by_cases hc : vhds.contains k'
    · simp only [hc, if_true] at he
      rcases List.mem_cons.mp he with heq | he2
      · subst heq; exact ⟨hc, List.mem_cons_self _ _⟩
      · obtain ⟨a, b⟩ := ih e he2
        exact ⟨a, List.mem_cons_of_mem _ b⟩
    · simp only [hc, Bool.false_eq_true, if_false] at he
      obtain ⟨a, b⟩ := ih e he
      exact ⟨a, List.mem_cons_of_mem _ b⟩

theorem cis_mutFree (vhds : List VPath) (l : List (VPath × VPath)) :
    MutFree (cleanInterruptedStates false vhds l).2 := by
  induction l with
  | nil => exact mutFree_nil
  | cons hd t ih =>
    obtain ⟨k', sp'⟩ := hd
    simp only [cleanInterruptedStates]
    by_cases hc : vhds.contains k'
    · simp only [hc, if_true]; exact ih
    · simp only [hc, Bool.false_eq_true, if_false]
      intro e he
      rcases List.mem_cons.mp (by simpa using he) with heq | he2
      · subst heq; rfl
      · exact ih e he2

theorem cis_unlink_of_missing (vhds : List VPath) (l : List (VPath × VPath))
    (k sp : VPath) (hmem : (k, sp) ∈ l) (hc : vhds.contains k = false) :
    Effect.unlink sp ∈ (cleanInterruptedStates true vhds l).2 := by
  induction l with
  | nil => simp at hmem
  | cons hd t ih =>
    obtain ⟨k', sp'⟩ := hd
    simp only [cleanInterruptedStates]
    rcases List.mem_cons.mp hmem with heq | hmem2
    · obtain ⟨rfl, rfl⟩ := Prod.mk.injEq .. ▸ heq
      have hc2 : k ∉ vhds := by simpa using hc
      simp [hc2]
    · by_cases hc' : vhds.contains k'
      · simp only [hc', if_true]; exact ih hmem2
      · simp only [hc', Bool.false_eq_true, if_false]
        exact List.mem_append.mpr (Or.inr (ih hmem2))

theorem cis_retained (remove : Bool) (vhds : List VPath)
    (l : List (VPath × VPath)) (k sp : VPath)
    (hmem : (k, sp) ∈ l) (hc : vhds.contains k = true) :
    (k, sp) ∈ (cleanInterruptedStates remove vhds l).1 := by
  induction l with
  | nil => simp at hmem
  | cons hd t ih =>
    obtain ⟨k', sp'⟩ := hd
    simp only [cleanInterruptedStates]
    rcases List.mem_cons.mp hmem with heq | hmem2
    · obtain ⟨rfl, rfl⟩ := Prod.mk.injEq .. ▸ heq
      have hc2 : k ∈ vhds := by simpa using hc
      simp [hc2]
    · by_cases hc' : vhds.contains k'
      · simp only [hc', if_true]
        exact List.mem_cons_of_mem _ (ih hmem2)
      · simp only [hc', Bool.false_eq_true, if_false]
        exact ih hmem2

/-- C9: after validation, an interrupted-merge entry whose covered VHD is no
longer in the active set is removed from the interrupted map — so it can
never force a merge chain — and its state file is deleted exactly when
repair is enabled (with repair off nothing at all is deleted); an entry
whose covered VHD survived is retained. -/
theorem cleanVm_orphan_merge_states (remove : Bool) (vhds : List VPath)
    (l : List (VPath × VPath)) (k sp : VPath) (hmem : (k, sp) ∈ l) :
    (vhds.contains k = false →
        (∀ sp2, (k, sp2) ∉ (cleanInterruptedStates remove vhds l).1) ∧
        (remove = true →
          Effect.unlink sp ∈ (cleanInterruptedStates remove vhds l).2) ∧
        (remove = false →
          ∀ x, Effect.unlink x ∉ (cleanInterruptedStates remove vhds l).2)) ∧
    (vhds.contains k = true →
        (k, sp) ∈ (cleanInterruptedStates remove vhds l).1) := by
  constructor
  · intro hc
    refine ⟨?_, ?_, ?_⟩
    · intro sp2 hin
      have := (cis_mem remove vhds l _ hin).1
      rw [hc] at this
      exact Bool.noConfusion this
    · intro hr; subst hr
      exact cis_unlink_of_missing vhds l k sp hmem hc
    · intro hr x hin; subst hr
      have := cis_mutFree vhds l _ hin
      simp [Effect.isMutation] at this
  · intro hc
    exact cis_retained remove vhds l k sp hmem hc

/-! ## Orphan pruning: specification and verification. -/

/-- A disk is an orphan when following its registered parent links (in the
parent map as it stood when the pruning stage started) reaches a link whose
target is outside the active set as it stood when the stage started. -/
inductive Orphan (parents : List (VPath × VPath)) (vhds : List VPath) : VPath → Prop
  | direct {x q : VPath} : alookup x parents = some q → q ∉ vhds →
      Orphan parents vhds x
  | step {x q : VPath} : alookup x parents = some q → Orphan parents vhds q →
      Orphan parents vhds x

theorem orphan_isSome {parents : List (VPath × VPath)} {vhds : List VPath}
    {x : VPath} (h : Orphan parents vhds x) : (alookup x parents).isSome := by
  cases h with
  | direct h2 _ => rw [h2]; rfl
  | step h2 _ => rw [h2]; rfl

theorem orphan_iff {parents : List (VPath × VPath)} {vhds : List VPath}
    {p q : VPath} (h : alookup p parents = some q) :
    Orphan parents vhds p ↔ (q ∉ vhds ∨ Orphan parents vhds q) := by
  constructor
  · intro ho
    cases ho with
    | direct h2 hq =>
      rw [h] at h2
      exact Or.inl (Option.some.inj h2 ▸ hq)
    | step h2 hq =>
      rw [h] at h2
      exact Or.inr (Option.some.inj h2 ▸ hq)
  · rintro (hq | hq)
    · exact .direct h hq
    · exact .step h hq

theorem alookup_aerase_sub {α : Type} {x k : VPath} {l : List (VPath × α)} {v : α}
    (hn : NodupKeys l) (h : alookup x (aerase k l) = some v) :
    alookup x l = some v := by
  by_cases hx : k = x
  · subst hx
    rw [alookup_aerase_self hn] at h
    exact Option.noConfusion h
  · rwa [alookup_aerase_ne l hx] at h

theorem deleteIfOrphan_none {remove : Bool} {st : OrphanSt} {p : VPath}
    (h : alookup p st.parents = none) : deleteIfOrphan remove st p = st := by
  rw [deleteIfOrphan]
  split
  · rfl
  · rename_i q hq
    rw [h] at hq
    exact Option.noConfusion hq

theorem deleteIfOrphan_some {remove : Bool} {st : OrphanSt} {p q : VPath}
    (h : alookup p st.parents = some q) :
    deleteIfOrphan remove st p =
      (let st2 := deleteIfOrphan remove { st with parents := aerase p st.parents } q
       if st2.vhds.contains q then st2
       else { st2 with vhds := st2.vhds.erase p,
                       trace := st2.trace ++ [.warn (.parentVhdMissing q p)] ++
                         (if remove then [.unlink p] else []) }) := by
  rw [deleteIfOrphan]
  split
  · rename_i hq
    rw [h] at hq
    exact Option.noConfusion hq
  · rename_i q' hq
    rw [h] at hq
    cases hq
    rfl

/-- The invariant of the orphan-pruning walk, relative to the maps as they
stood when the stage started (`parents0`, `vhds0`).  `L` is the set of
nodes currently on the recursion stack: unregistered but still undecided. -/
structure GoodE (parents0 : List (VPath × VPath)) (vhds0 : List VPath)
    (remove : Bool) (L : List VPath) (st : OrphanSt) : Prop where
  nk : NodupKeys st.parents
  nv : st.vhds.Nodup
  sub : ∀ x q, alookup x st.parents = some q → alookup x parents0 = some q
  pend : ∀ x q, alookup x st.parents = some q → (x ∈ st.vhds ↔ x ∈ vhds0)
  dec : ∀ x, x ∉ L → alookup x st.parents = none →
    (x ∈ st.vhds ↔ x ∈ vhds0 ∧ ¬ Orphan parents0 vhds0 x)
  limbo : ∀ x ∈ L, alookup x st.parents = none ∧ (x ∈ st.vhds ↔ x ∈ vhds0)
  unl : ∀ x, x ∉ L → alookup x st.parents = none → (alookup x parents0).isSome →
    Orphan parents0 vhds0 x → remove = true → Effect.unlink x ∈ st.trace

theorem dio_main (parents0 : List (VPath × VPath)) (vhds0 : List VPath)
    (remove : Bool) (rank : VPath → Nat)
    (hrank : ∀ x y, alookup x parents0 = some y → rank y < rank x) :
    ∀ n (st : OrphanSt) (L : List VPath) (p : VPath), st.parents.length ≤ n →
      GoodE parents0 vhds0 remove L st → p ∉ L →
      (∀ y ∈ L, rank p < rank y) →
      GoodE parents0 vhds0 remove L (deleteIfOrphan remove st p) ∧
      alookup p (deleteIfOrphan remove st p).parents = none ∧
      (∀ x q, alookup x (deleteIfOrphan remove st p).parents = some q →
        alookup x st.parents = some q) ∧
      (∀ x, x ∈ (deleteIfOrphan remove st p).vhds → x ∈ st.vhds) ∧
      (∀ e, e ∈ st.trace → e ∈ (deleteIfOrphan remove st p).trace) := by
  intro n
  induction n with
  | zero =>
    intro st L p hlen hG hpL hrk
    have hnone : alookup p st.parents = none := by
      have h0 : st.parents = [] := List.length_eq_zero.mp (Nat.le_zero.mp hlen)
      rw [h0]; rfl
    rw [deleteIfOrphan_none hnone]
    exact ⟨hG, hnone, fun x q h => h, fun x h => h, fun e h => h⟩
  | succ n ih =>
    intro st L p hlen hG hpL hrk
    cases hl : alookup p st.parents with
    | none =>
      rw [deleteIfOrphan_none hl]
      exact ⟨hG, hl, fun x q h => h, fun x h => h, fun e h => h⟩
    | some q =>
      rw [deleteIfOrphan_some hl]
      have hq0 : alookup p parents0 = some q := hG.sub p q hl
      have hrpq : rank q < rank p := hrank p q hq0
      set stA : OrphanSt := { st with parents := aerase p st.parents } with hstA
      have hGA : GoodE parents0 vhds0 remove (p :: L) stA := by
        refine ⟨nodupKeys_aerase hG.nk, hG.nv, ?_, ?_, ?_, ?_, ?_⟩
        · intro x v hx
          exact hG.sub x v (alookup_aerase_sub hG.nk hx)
        · intro x v hx
          exact hG.pend x v (alookup_aerase_sub hG.nk hx)
        · intro x hxL hx
          have hxp : p ≠ x := fun h => hxL (h ▸ List.mem_cons_self p L)
          rw [alookup_aerase_ne _ hxp] at hx
          exact hG.dec x (fun h => hxL (List.mem_cons_of_mem _ h)) hx
        · intro x hx
          rcases List.mem_cons.mp hx with rfl | hxL
          · exact ⟨alookup_aerase_self hG.nk, hG.pend x q hl⟩
          · have hxp : p ≠ x := fun h => hpL (h ▸ hxL)
            obtain ⟨h1, h2⟩ := hG.limbo x hxL
            refine ⟨?_, h2⟩
            rw [alookup_aerase_ne _ hxp]
            exact h1
        · intro x hxL hx hsome ho hr
          have hxp : p ≠ x := fun h => hxL (h ▸ List.mem_cons_self p L)
          rw [alookup_aerase_ne _ hxp] at hx
          exact hG.unl x (fun h => hxL (List.mem_cons_of_mem _ h)) hx hsome ho hr
      have hlenA : stA.parents.length ≤ n := by
        have hlt := aerase_length_lt hl
        simp only [hstA] at *
        omega
      have hqL : q ∉ p :: L := by
        intro hq
        rcases List.mem_cons.mp hq with rfl | hq2
        · exact absurd hrpq (lt_irrefl _)
        · have := hrk q hq2
          omega
      have hrkA : ∀ y ∈ p :: L, rank q < rank y := by
        intro y hy
        rcases List.mem_cons.mp hy with rfl | hy2
        · exact hrpq
        · exact lt_trans hrpq (hrk y hy2)
      obtain ⟨G2, hq2, sub2, vsub2, tr2⟩ := ih stA (p :: L) q hlenA hGA hqL hrkA
      set st2 : OrphanSt := deleteIfOrphan remove stA q with hst2
      obtain ⟨hp2none, hp2mem⟩ := G2.limbo p (List.mem_cons_self p L)
      have hqdec : q ∈ st2.vhds ↔ q ∈ vhds0 ∧ ¬ Orphan parents0 vhds0 q :=
        G2.dec q hqL hq2
      have hOrp : Orphan parents0 vhds0 p ↔
          (q ∉ vhds0 ∨ Orphan parents0 vhds0 q) := orphan_iff hq0
      have hpsub : ∀ x v, alookup x st2.parents = some v →
          alookup x st.parents = some v := by
        intro x v h
        exact alookup_aerase_sub hG.nk (sub2 x v h)
      by_cases hqv : st2.vhds.contains q = true
      · rw [if_pos hqv]
        have hqmem : q ∈ st2.vhds := by simpa using hqv
        have hnOp : ¬ Orphan parents0 vhds0 p := by
          rw [hOrp]
          rintro (h | h)
          · exact h (hqdec.mp hqmem).1
          · exact (hqdec.mp hqmem).2 h
        refine ⟨⟨G2.nk, G2.nv, G2.sub, G2.pend, ?_, ?_, ?_⟩, hp2none, hpsub,
          vsub2, tr2⟩
        · intro x hxL hx
          by_cases hxp : x = p
          · subst hxp
            rw [hp2mem]
            simp [hnOp]
          · exact G2.dec x (by simp [hxL, hxp]) hx
        · intro x hx
          exact G2.limbo x (List.mem_cons_of_mem _ hx)
        · intro x hxL hx hs ho hr
          by_cases hxp : x = p
          · subst hxp
            exact absurd ho hnOp
          · exact G2.unl x (by simp [hxL, hxp]) hx hs ho hr
      · rw [if_neg hqv]
        have hqnmem : q ∉ st2.vhds := by simpa using hqv
        have hOp : Orphan parents0 vhds0 p := by
          rw [hOrp]
          by_cases hq0v : q ∈ vhds0
          · right
            by_contra hno
            exact hqnmem (hqdec.mpr ⟨hq0v, hno⟩)
          · exact Or.inl hq0v
        refine ⟨⟨G2.nk, G2.nv.erase p, G2.sub, ?_, ?_, ?_, ?_⟩, hp2none, hpsub,
          ?_, ?_⟩
        · intro x v hx
          have hxp : x ≠ p := by
            rintro rfl
            rw [hp2none] at hx
            exact Option.noConfusion hx
          rw [List.mem_erase_of_ne hxp]
          exact G2.pend x v hx
        · intro x hxL hx
          by_cases hxp : x = p
          · subst hxp
            exact iff_of_false (G2.nv.not_mem_erase) (fun h => h.2 hOp)
          · rw [List.mem_erase_of_ne hxp]
            exact G2.dec x (by simp [hxL, hxp]) hx
        · intro x hx
          have hxp : x ≠ p := by
            rintro rfl
            exact hpL hx
          obtain ⟨h1, h2⟩ := G2.limbo x (List.mem_cons_of_mem _ hx)
          refine ⟨h1, ?_⟩
          rw [List.mem_erase_of_ne hxp]
          exact h2
        · intro x hxL hx hs ho hr
          by_cases hxp : x = p
          · subst hxp
            simp [hr]
          · have := G2.unl x (by simp [hxL, hxp]) hx hs ho hr
            simp [this]
        · intro x hx
          exact vsub2 x (List.mem_of_mem_erase hx)
        · intro e he
          have := tr2 e he
          simp [this]

theorem prune_fold (parents0 : List (VPath × VPath)) (vhds0 : List VPath)
    (remove : Bool) (rank : VPath → Nat)
    (hrank : ∀ x y, alookup x parents0 = some y → rank y < rank x) :
    ∀ (ks : List VPath) (st : OrphanSt), GoodE parents0 vhds0 remove [] st →
      GoodE parents0 vhds0 remove [] (ks.foldl (deleteIfOrphan remove) st) ∧
      (∀ x q, alookup x (ks.foldl (deleteIfOrphan remove) st).parents = some q →
        alookup x st.parents = some q) ∧
      (∀ k ∈ ks, alookup k (ks.foldl (deleteIfOrphan remove) st).parents = none) ∧
      (∀ e, e ∈ st.trace → e ∈ (ks.foldl (deleteIfOrphan remove) st).trace) := by
  intro ks
  induction ks with
  | nil =>
    intro st hG
    exact ⟨hG, fun x q h => h, fun k h => absurd h (List.not_mem_nil k),
      fun e h => h⟩
  | cons k t ih =>
    intro st hG
    obtain ⟨G1, hk1, ps1, vs1, tr1⟩ :=
      dio_main parents0 vhds0 remove rank hrank st.parents.length st [] k
        (le_refl _) hG (List.not_mem_nil k) (by intro y hy; simp at hy)
    obtain ⟨G2, ps2, dec2, tr2⟩ := ih (deleteIfOrphan remove st k) G1
    refine ⟨G2, ?_, ?_, ?_⟩
    · intro x q h
      exact ps1 x q (ps2 x q h)
    · intro k2 hk2
      rcases List.mem_cons.mp hk2 with rfl | hk3
      · simp only [List.foldl_cons]
        cases h2 : alookup k2
            ((t.foldl (deleteIfOrphan remove) (deleteIfOrphan remove st k2)).parents) with
        | none => rfl
        | some v =>
          have := ps2 k2 v h2
          rw [hk1] at this
          exact Option.noConfusion this
      · exact dec2 k2 hk3
    · intro e he
      exact tr2 e (tr1 e he)

/-- Fuel-indexed twin of `deleteIfOrphan`, used to evaluate the pruner on
concrete inputs (the fuel never runs out when it is at least the size of the
parent map, which shrinks at every recursive call). -/
def deleteIfOrphanF (remove : Bool) : Nat → OrphanSt → VPath → OrphanSt
  | 0, st, _ => st
  | n+1, st, p =>
    match alookup p st.parents with
    | none => st
    | some q =>
      let st2 := deleteIfOrphanF remove n { st with parents := aerase p st.parents } q
      if st2.vhds.contains q then st2
      else { st2 with vhds := st2.vhds.erase p,
                      trace := st2.trace ++ [.warn (.parentVhdMissing q p)] ++
                        (if remove then [.unlink p] else []) }

/-- Executable twin of `pruneOrphans`. -/
def pruneOrphansF (remove : Bool) (parents0 : List (VPath × VPath))
    (vhds : List VPath) : OrphanSt :=
  (parents0.map Prod.fst).foldl
    (fun st p => deleteIfOrphanF remove st.parents.length st p)
    { parents := parents0, vhds := vhds, trace := [] }

theorem deleteIfOrphanF_eq (remove : Bool) :
    ∀ (n : Nat) (st : OrphanSt) (p : VPath), st.parents.length ≤ n →
      deleteIfOrphanF remove n st p = deleteIfOrphan remove st p := by
  intro n
  induction n with
  | zero =>
    intro st p hlen
    have h0 : st.parents = [] := List.length_eq_zero.mp (Nat.le_zero.mp hlen)
    have hnone : alookup p st.parents = none := by rw [h0]; rfl
    rw [deleteIfOrphan_none hnone]
    rfl
  | succ n ih =>
    intro st p hlen
    cases hl : alookup p st.parents with
    | none =>
      rw [deleteIfOrphan_none hl]
      simp [deleteIfOrphanF, hl]
    | some q =>
      rw [deleteIfOrphan_some hl]
      have hlt := aerase_length_lt hl
      have hrec := ih { st with parents := aerase p st.parents } q
        (by show (aerase p st.parents).length ≤ n; omega)
      simp only [deleteIfOrphanF, hl, hrec]

theorem pruneOrphansF_eq (remove : Bool) (parents0 : List (VPath × VPath))
    (vhds : List VPath) :
    pruneOrphansF remove parents0 vhds = pruneOrphans remove parents0 vhds := by
  unfold pruneOrphansF pruneOrphans
  congr 1
  funext st p
  exact deleteIfOrphanF_eq remove st.parents.length st p (le_refl _)

/-- C2 (amended): provided the registered parent relation is acyclic (it
admits a rank function decreasing along parent links), a disk survives the
orphan-pruning stage exactly when it was active and no chain of parent links
from it leaves the active set, so every disk with a missing parent is
removed together with its entire descendant chain; and with repair enabled
the deletion of every such orphaned disk's file is issued.  (With cyclic
parent links the live-set check makes the outcome depend on traversal order;
see the counterexample.) -/
theorem cleanVm_orphan_pruning_acyclic (remove : Bool)
    (parents0 : List (VPath × VPath)) (vhds0 : List VPath) (rank : VPath → Nat)
    (hrank : ∀ x y, alookup x parents0 = some y → rank y < rank x)
    (hnk : NodupKeys parents0) (hnv : vhds0.Nodup) (x : VPath) :
    (x ∈ (pruneOrphans remove parents0 vhds0).vhds ↔
      x ∈ vhds0 ∧ ¬ Orphan parents0 vhds0 x) ∧
    (remove = true → Orphan parents0 vhds0 x →
      Effect.unlink x ∈ (pruneOrphans remove parents0 vhds0).trace) := by
  have hG0 : GoodE parents0 vhds0 remove []
      { parents := parents0, vhds := vhds0, trace := [] } := by
    refine ⟨hnk, hnv, fun x q h => h, fun x q h => Iff.rfl, ?_, ?_, ?_⟩
    · intro x _ hx
      have hno : ¬ Orphan parents0 vhds0 x := by
        intro ho
        have := orphan_isSome ho
        rw [hx] at this
        exact Bool.noConfusion this
      simp [hno]
    · intro x hx
      simp at hx
    · intro x _ hx hs _ _
      rw [hx] at hs
      exact Bool.noConfusion hs
  obtain ⟨G, psub, dkeys, _⟩ :=
    prune_fold parents0 vhds0 remove rank hrank (parents0.map Prod.fst)
      { parents := parents0, vhds := vhds0, trace := [] } hG0
  have hxnone : alookup x (pruneOrphans remove parents0 vhds0).parents = none := by
    cases h0 : alookup x parents0 with
    | none =>
      cases h1 : alookup x (pruneOrphans remove parents0 vhds0).parents with
      | none => rfl
      | some v =>
        have := psub x v h1
        rw [h0] at this
        exact Option.noConfusion this
    | some q =>
      exact dkeys x (mem_keys_of_alookup h0)
  constructor
  · exact G.dec x (List.not_mem_nil x) hxnone
  · intro hr ho
    exact G.unl x (List.not_mem_nil x) hxnone (orphan_isSome ho) ho hr

/-- C2 witness: an acyclic one-link instance, instantiating the amended
theorem at the orphaned disk. -/
theorem cleanVm_orphan_pruning_acyclic_witness :
    ("/cc" ∈ (pruneOrphans true [("/cc", "/p")] ["/cc"]).vhds ↔
      "/cc" ∈ (["/cc"] : List VPath) ∧
        ¬ Orphan [("/cc", "/p")] ["/cc"] "/cc") ∧
    (true = true → Orphan [("/cc", "/p")] ["/cc"] "/cc" →
      Effect.unlink "/cc" ∈ (pruneOrphans true [("/cc", "/p")] ["/cc"]).trace) := by
  refine cleanVm_orphan_pruning_acyclic true [("/cc", "/p")] ["/cc"]
    String.length ?_ (by unfold NodupKeys; decide) (by decide) "/cc"
  intro x y h
  by_cases hx : "/cc" = x
  · subst hx
    have hy : y = "/p" := by simpa [alookup] using h.symm
    subst hy
    decide
  · simp [alookup, hx] at h

/-- C2 counterexample: with cyclic parent links `/a → /b → /c → /a` where
only `/b` is missing from the active set, the disk `/a` has a registered
parent absent from the active set and `/c` is `/a`'s registered child, yet
after the pruning pass `/c` is still active (only `/a` was removed): the
descendant chain of a missing-parent disk is not removed transitively. -/
theorem cleanVm_orphan_pruning_counterexample :
    alookup "/a" [("/a", "/b"), ("/b", "/c"), ("/c", "/a")] = some "/b" ∧
    "/b" ∉ (["/a", "/c"] : List VPath) ∧
    alookup "/c" [("/a", "/b"), ("/b", "/c"), ("/c", "/a")] = some "/a" ∧
    "/c" ∈ (["/a", "/c"] : List VPath) ∧
    "/c" ∈ (pruneOrphans true [("/a", "/b"), ("/b", "/c"), ("/c", "/a")]
      ["/a", "/c"]).vhds ∧
    "/a" ∉ (pruneOrphans true [("/a", "/b"), ("/b", "/c"), ("/c", "/a")]
      ["/a", "/c"]).vhds := by
  rw [← pruneOrphansF_eq]
  decide

/-! ## Chain computation: specification and verification. -/

/-- Declarative description of the value produced by following child
pointers from a disk: a used disk yields the one-element chain holding
itself; an unused disk with a child prepends itself to the child's chain; an
unused disk whose child pointer leads to no chain (no child at all, or only
dead unused descendants) yields no chain. -/
inductive ChainRes (children : VPath → Option VPath) (unused : List VPath) :
    VPath → Option Chain → Prop
  | used {v : VPath} : unused.contains v = false →
      ChainRes children unused v (some [some v])
  | cons {v c : VPath} {ch : Chain} : unused.contains v = true →
      children v = some c → ChainRes children unused c (some ch) →
      ChainRes children unused v (some (some v :: ch))
  | leaf {v : VPath} : unused.contains v = true → children v = none →
      ChainRes children unused v none
  | dead {v c : VPath} : unused.contains v = true → children v = some c →
      ChainRes children unused c none → ChainRes children unused v none

theorem chainRes_some_ne_nil {children : VPath → Option VPath}
    {unused : List VPath} {x : VPath} {ch : Chain}
    (h : ChainRes children unused x (some ch)) : ch ≠ [] := by
  cases h with
  | used _ => simp
  | cons _ _ _ => simp

theorem chainRes_unique {children : VPath → Option VPath} {unused : List VPath}
    {v : VPath} {r1 : Option Chain}
    (h1 : ChainRes children unused v r1) :
    ∀ r2, ChainRes children unused v r2 → r1 = r2 := by
  induction h1 with
  | used hv =>
    intro r2 h2
    cases h2 with
    | used _ => rfl
    | cons hv2 _ _ => rw [hv] at hv2; exact Bool.noConfusion hv2
    | leaf hv2 _ => rw [hv] at hv2; exact Bool.noConfusion hv2
    | dead hv2 _ _ => rw [hv] at hv2; exact Bool.noConfusion hv2
  | cons hv hc hrec ih =>
    intro r2 h2
    cases h2 with
    | used hv2 => rw [hv] at hv2; exact Bool.noConfusion hv2
    | cons hv2 hc2 hrec2 =>
      rename_i c ch c2 ch2
      rw [hc] at hc2
      cases hc2
      have := ih (some ch2) hrec2
      cases this
      rfl
    | leaf _ hc2 => rw [hc] at hc2; exact Option.noConfusion hc2
    | dead hv2 hc2 hrec2 =>
      rw [hc] at hc2
      cases hc2
      have := ih none hrec2
      exact Option.noConfusion this
  | leaf hv hc =>
    intro r2 h2
    cases h2 with
    | used hv2 => rw [hv] at hv2; exact Bool.noConfusion hv2
    | cons _ hc2 _ => rw [hc] at hc2; exact Option.noConfusion hc2
    | leaf _ _ => rfl
    | dead _ hc2 _ => rw [hc] at hc2
  | dead hv hc hrec ih =>
    intro r2 h2
    cases h2 with
    | used hv2 => rw [hv] at hv2; exact Bool.noConfusion hv2
    | cons _ hc2 hrec2 =>
      rw [hc] at hc2
      cases hc2
      have := ih _ hrec2
      exact Option.noConfusion this
    | leaf _ hc2 => rw [hc] at hc2
    | dead _ hc2 hrec2 => rfl

/-- All memoised chains describe genuine child-following results. -/
def MemoSound (children : VPath → Option VPath) (unused : List VPath)
    (memo : List (VPath × Option Chain)) : Prop :=
  NodupKeys memo ∧ ∀ x c, alookup x memo = some c → ChainRes children unused x c

theorem getUsed_sound (children : VPath → Option VPath) (unused : List VPath)
    (remove : Bool) :
    ∀ (fuel : Nat) (st : ChainSt) (v : VPath) (st' : ChainSt) (res : Option Chain),
      MemoSound children unused st.memo →
      getUsedChildChainOrDelete children unused remove fuel st v =
        some (st', res) →
      ChainRes children unused v res ∧ MemoSound children unused st'.memo ∧
      (∀ e ∈ st'.memo, e ∈ st.memo) ∧
      (∀ x ∈ st'.toCheck, x ∈ st.toCheck) ∧
      (∀ e ∈ st.trace, e ∈ st'.trace) := by
  intro fuel
  induction fuel with
  | zero =>
    intro st v st' res _ heq
    exact Option.noConfusion heq
  | succ fuel ih =>
    intro st v st' res hms heq
    rw [getUsedChildChainOrDelete] at heq
    split at heq
    · rename_i c hm
      simp only [Option.some.injEq, Prod.mk.injEq] at heq
      obtain ⟨hst, hres⟩ := heq
      refine ⟨hres ▸ hms.2 v c hm, ?_, ?_, ?_, ?_⟩
      · rw [← hst]
        exact ⟨nodupKeys_aerase hms.1, fun x c2 h =>
          hms.2 x c2 (alookup_aerase_sub hms.1 h)⟩
      · rw [← hst]; exact fun e he => mem_aerase he
      · rw [← hst]; exact fun x hx => hx
      · rw [← hst]; exact fun e he => he
    · rename_i hm
      split at heq
      · rename_i hv
        have hv2 : unused.contains v = false := by simpa using hv
        simp only [Option.some.injEq, Prod.mk.injEq] at heq
        obtain ⟨hst, hres⟩ := heq
        rw [← hst, ← hres]
        exact ⟨.used hv2, hms, fun e he => he, fun x hx => hx, fun e he => he⟩
      · rename_i hv
        have hv2 : unused.contains v = true := by simpa using hv
        split at heq
        · rename_i c hc
          split at heq
          · exact Option.noConfusion heq
          · rename_i st2 ch hrec
            simp only [Option.some.injEq, Prod.mk.injEq] at heq
            obtain ⟨hst, hres⟩ := heq
            obtain ⟨hcr, hms2, hsub2, htc2, htr2⟩ :=
              ih { st with toCheck := st.toCheck.erase v } c st2 (some ch) hms hrec
            rw [← hst, ← hres]
            exact ⟨.cons hv2 hc hcr, hms2, hsub2,
              fun x hx => List.erase_subset _ _ (htc2 x hx), htr2⟩
          · rename_i st2 hrec
            simp only [Option.some.injEq, Prod.mk.injEq] at heq
            obtain ⟨hst, hres⟩ := heq
            obtain ⟨hcr, hms2, hsub2, htc2, htr2⟩ :=
              ih { st with toCheck := st.toCheck.erase v } c st2 none hms hrec
            rw [← hst, ← hres]
            refine ⟨.dead hv2 hc hcr, hms2, hsub2,
              fun x hx => List.erase_subset _ _ (htc2 x hx), ?_⟩
            intro e he
            simp only [delUnused, List.mem_append]
            exact Or.inl (Or.inl (htr2 e he))
        · rename_i hc
          simp only [Option.some.injEq, Prod.mk.injEq] at heq
          obtain ⟨hst, hres⟩ := heq
          rw [← hst, ← hres]
          refine ⟨.leaf hv2 hc, hms, fun e he => he,
            fun x hx => List.erase_subset _ _ hx, ?_⟩
          intro e he
          simp only [delUnused, List.mem_append]
          exact Or.inl (Or.inl he)

theorem chain_to_chainRes (children : VPath → Option VPath) (unused : List VPath) :
    ∀ (us : List VPath) (v w : VPath),
      List.Chain' (fun a b => children a = some b) (v :: us ++ [w]) →
      (∀ x ∈ v :: us, unused.contains x = true) →
      unused.contains w = false →
      ChainRes children unused v (some (((v :: us) ++ [w]).map some)) := by
  intro us
  induction us with
  | nil =>
    intro v w hch hun hw
    have hlink : children v = some w := (List.chain'_cons.mp hch).1
    exact .cons (hun v (List.mem_cons_self v [])) hlink (.used hw)
  | cons u t ih =>
    intro v w hch hun hw
    have hch2 : List.Chain' (fun a b => children a = some b) (u :: t ++ [w]) :=
      (List.chain'_cons.mp hch).2
    have hlink : children v = some u := (List.chain'_cons.mp hch).1
    have hun2 : ∀ x ∈ u :: t, unused.contains x = true := by
      intro x hx
      exact hun x (List.mem_cons_of_mem _ hx)
    exact .cons (hun v (List.mem_cons_self v _)) hlink (ih u w hch2 hun2 hw)

/-- Every memoised `some`-chain has at least two elements. -/
def MemoLong (memo : List (VPath × Option Chain)) : Prop :=
  ∀ e ∈ memo, ∀ ch : Chain, e.2 = some ch → 2 ≤ ch.length

theorem chainLoop_inv (children : VPath → Option VPath) (unused : List VPath)
    (remove : Bool) (fuel : Nat) :
    ∀ (l : List VPath) (st st2 : ChainSt),
      MemoSound children unused st.memo →
      (∀ x ∈ st.toCheck, unused.contains x = true) →
      MemoLong st.memo →
      chainLoop children unused remove fuel l st = some st2 →
      MemoSound children unused st2.memo ∧ MemoLong st2.memo := by
  intro l
  induction l with
  | nil =>
    intro st st2 hms htc hml heq
    cases heq
    exact ⟨hms, hml⟩
  | cons v t ih =>
    intro st st2 hms htc hml heq
    rw [chainLoop] at heq
    split at heq
    · rename_i hv
      split at heq
      · exact Option.noConfusion heq
      · rename_i st1 c hrec
        obtain ⟨hcr, hms1, hsub1, htc1, _⟩ :=
          getUsed_sound children unused remove fuel st v st1 c hms hrec
        have hvun : unused.contains v = true := htc v (by simpa using hv)
        have hlen : ∀ ch : Chain, c = some ch → 2 ≤ ch.length := by
          intro ch hc
          subst hc
          cases hcr with
          | used hv2 => rw [hvun] at hv2; exact Bool.noConfusion hv2
          | cons hv2 hc2 hrec2 =>
            rename_i c2 ch2
            have := chainRes_some_ne_nil hrec2
            simp only [List.length_cons]
            have : 1 ≤ ch2.length := by
              cases ch2 with
              | nil => exact absurd rfl this
              | cons a b => simp
            omega
        refine ih { st1 with memo := ainsert v c st1.memo } st2 ?_ ?_ ?_ heq
        · refine ⟨nodupKeys_ainsert hms1.1, ?_⟩
          intro x c2 hx
          by_cases hxv : x = v
          · subst hxv
            rw [alookup_ainsert_self] at hx
            cases hx
            exact hcr
          · rw [alookup_ainsert_ne _ _ (fun h => hxv h.symm)] at hx
            exact hms1.2 x c2 hx
        · intro x hx
          exact htc x (htc1 x hx)
        · intro e he ch hch
          rcases mem_ainsert he with rfl | he2
          · exact hlen ch hch
          · exact hml e (hsub1 e he2) ch hch
    · exact ih st st2 hms htc hml heq

theorem alookup_foldl_ainsert_not_mem {α : Type} (f : VPath → α) :
    ∀ (keys : List VPath) (m : List (VPath × α)) (p : VPath), p ∉ keys →
      alookup p (keys.foldl (fun m q => ainsert q (f q) m) m) = alookup p m := by
  intro keys
  induction keys with
  | nil => intro m p _; rfl
  | cons k t ih =>
    intro m p hp
    have hpk : k ≠ p := by
      rintro rfl
      exact hp (List.mem_cons_self _ _)
    simp only [List.foldl_cons]
    rw [ih _ p (fun h => hp (List.mem_cons_of_mem _ h))]
    exact alookup_ainsert_ne _ _ hpk

theorem alookup_foldl_ainsert {α : Type} (f : VPath → α) :
    ∀ (keys : List VPath) (m : List (VPath × α)) (p : VPath), p ∈ keys →
      alookup p (keys.foldl (fun m q => ainsert q (f q) m) m) = some (f p) := by
  intro keys
  induction keys with
  | nil => intro m p hp; simp at hp
  | cons k t ih =>
    intro m p hp
    by_cases hpt : p ∈ t
    · simp only [List.foldl_cons]
      exact ih _ p hpt
    · rcases List.mem_cons.mp hp with rfl | hp2
      · simp only [List.foldl_cons]
        rw [alookup_foldl_ainsert_not_mem f t _ p hpt]
        exact alookup_ainsert_self _ _ _
      · exact absurd hp2 hpt

theorem mem_foldl_ainsert {α : Type} (f : VPath → α) :
    ∀ (keys : List VPath) (m : List (VPath × α)) (e : VPath × α),
      e ∈ keys.foldl (fun m q => ainsert q (f q) m) m →
      (∃ q ∈ keys, e = (q, f q)) ∨ e ∈ m := by
  intro keys
  induction keys with
  | nil => intro m e he; exact Or.inr he
  | cons k t ih =>
    intro m e he
    simp only [List.foldl_cons] at he
    rcases ih _ e he with ⟨q, hq, rfl⟩ | he2
    · exact Or.inl ⟨q, List.mem_cons_of_mem _ hq, rfl⟩
    · rcases mem_ainsert he2 with rfl | he3
      · exact Or.inl ⟨k, List.mem_cons_self _ _, rfl⟩
      · exact Or.inr he3

/-- C3 (amended): for an unused disk, the chain computed by following child
pointers absorbs the consecutive unused disks and ends at — and includes, as
its final element — the first used disk reached (the merge target the unused
prefix is folded into); and an unused disk with no child at all produces no
chain and is instead deleted outright exactly when repair is enabled. -/
theorem cleanVm_chain_computation :
    (∀ (children : VPath → Option VPath) (unused : List VPath) (remove : Bool)
        (fuel : Nat) (st : ChainSt) (v w : VPath) (us : List VPath)
        (st' : ChainSt) (res : Option Chain),
      MemoSound children unused st.memo →
      List.Chain' (fun a b => children a = some b) (v :: us ++ [w]) →
      (∀ x ∈ v :: us, unused.contains x = true) →
      unused.contains w = false →
      getUsedChildChainOrDelete children unused remove fuel st v =
        some (st', res) →
      res = some (((v :: us) ++ [w]).map some)) ∧
    (∀ (children : VPath → Option VPath) (unused : List VPath) (remove : Bool)
        (fuel : Nat) (st : ChainSt) (v : VPath) (st' : ChainSt)
        (res : Option Chain),
      st.trace = [] →
      alookup v st.memo = none → unused.contains v = true → children v = none →
      getUsedChildChainOrDelete children unused remove fuel st v =
        some (st', res) →
      res = none ∧ (Effect.unlink v ∈ st'.trace ↔ remove = true)) := by
  constructor
  · intro children unused remove fuel st v w us st' res hms hch hun hw heq
    obtain ⟨hcr, _, _, _, _⟩ :=
      getUsed_sound children unused remove fuel st v st' res hms heq
    exact (chainRes_unique (chain_to_chainRes children unused us v w hch hun hw)
      res hcr).symm
  · intro children unused remove fuel st v st' res htr hm hv hc heq
    cases fuel with
    | zero => exact Option.noConfusion heq
    | succ fuel =>
      rw [getUsedChildChainOrDelete] at heq
      split at heq
      · rename_i c hm2
        rw [hm] at hm2
        exact Option.noConfusion hm2
      · split at heq
        · rename_i hv2
          rw [hv] at hv2
          simp at hv2
        · split at heq
          · rename_i c hc2
            rw [hc] at hc2
            exact Option.noConfusion hc2
          · simp only [Option.some.injEq, Prod.mk.injEq] at heq
            obtain ⟨hst, hres⟩ := heq
            refine ⟨hres.symm, ?_⟩
            rw [← hst]
            simp only [delUnused, htr]
            cases remove <;> simp

/-- C4: every disk that still has a pending interrupted-merge marker after
validation receives the forced 2-element chain `[its recorded child,
itself]` in the merge set, and this entry overwrites whatever chain the
usage-driven loop computed for that disk, so the forced chain is what ends
up in `toMerge`. -/
theorem cleanVm_interrupted_forces_chain (children : VPath → Option VPath)
    (unused ik : List VPath) (remove : Bool) (fuel : Nat) (out : ChainsOut)
    (h : computeChains children unused ik remove fuel = some out) (p : VPath)
    (hp : p ∈ ik) :
    alookup p out.memo = some (some [children p, some p]) ∧
    ([children p, some p] : Chain) ∈ out.toMerge := by
  rw [computeChains] at h
  split at h
  · exact Option.noConfusion h
  · rename_i st hcl
    simp only [Option.some.injEq] at h
    subst h
    have hlk : alookup p (ik.foldl
        (fun m q => ainsert q (some [children q, some q]) m) st.memo) =
        some (some [children p, some p]) :=
      alookup_foldl_ainsert (fun q => some [children q, some q]) ik st.memo p hp
    refine ⟨hlk, ?_⟩
    have hmem := mem_of_alookup hlk
    exact List.mem_filterMap.mpr ⟨some [children p, some p],
      List.mem_map.mpr ⟨_, hmem, rfl⟩, rfl⟩

/-- C10: every chain the computation block puts into the merge set — whether
produced by the usage-driven loop or forced by an interrupted-merge marker —
has at least two elements, so the length assertion at the start of
mergeVhdChain cannot fire on chains produced by cleanVm. -/
theorem cleanVm_merge_chains_length (children : VPath → Option VPath)
    (unused ik : List VPath) (remove : Bool) (fuel : Nat) (out : ChainsOut)
    (h : computeChains children unused ik remove fuel = some out) :
    ∀ ch ∈ out.toMerge, 2 ≤ ch.length ∧
      ∀ (env : Env) (r m : Bool), (mergeVhdChain env r m ch).isOk = true := by
  rw [computeChains] at h
  split at h
  · exact Option.noConfusion h
  · rename_i st hcl
    simp only [Option.some.injEq] at h
    subst h
    obtain ⟨hms, hml⟩ := chainLoop_inv children unused remove fuel unused
      { memo := [], toCheck := unused, trace := [] } st
      ⟨List.nodup_nil, fun x c hx => Option.noConfusion hx⟩
      (fun x hx => by simpa using hx)
      (fun e he => absurd he (List.not_mem_nil e)) hcl
    have hml2 : MemoLong (ik.foldl
        (fun m q => ainsert q (some [children q, some q]) m) st.memo) := by
      intro e he ch hch
      rcases mem_foldl_ainsert (fun q => some [children q, some q]) ik st.memo
          e he with ⟨q, _, rfl⟩ | he2
      · simp only at hch
        cases hch
        rfl
      · exact hml e he2 ch hch
    intro ch hch
    obtain ⟨a, ha, hid⟩ := List.mem_filterMap.mp hch
    subst hid
    obtain ⟨e, he, hsnd⟩ := List.mem_map.mp ha
    have hlen : 2 ≤ ch.length := hml2 e he ch hsnd
    refine ⟨hlen, ?_⟩
    intro env r m
    simp [mergeVhdChain, Nat.not_lt.mpr hlen, Except.isOk, Except.toBool]

/-- C3 counterexample: an unused disk `/A` whose child `/B` is used yields
the computed chain `[/A, /B]`, which contains the used disk `/B` as its last
element — contradicting the claim that the chain ends at but does not
include the first used disk reached. -/
theorem cleanVm_chain_includes_used_disk :
    (["/A"] : List VPath).contains "/B" = false ∧
    getUsedChildChainOrDelete (fun p => if p = "/A" then some "/B" else none)
      ["/A"] false 3 { memo := [], toCheck := ["/A"], trace := [] } "/A" =
      some ({ memo := [], toCheck := [], trace := [] },
        some [some "/A", some "/B"]) ∧
    (some "/B") ∈ ([some "/A", some "/B"] : Chain) := by
  decide

/-- C6 (amended): during size reconciliation, a record whose disks were
merged this run (or with fix-metadata on) has its stored size overwritten
when it disagrees with the recomputed size; a non-merged mismatch produces
the incorrect-size warning only for delta records — for full records no
warning is logged — and in either mode no write happens unless the record
was merged or fix-metadata is requested; and a delta record whose size is
not cheaply computable is skipped entirely (no warning, no write). -/
theorem cleanVm_size_reconciliation (env : Env) (fix : Bool)
    (mergedJsons : List VPath) (j : VPath) (m : MetadataRecord) (s : Int)
    (hmeta : env.readMeta j = some m) :
    (m.mode = "full" → env.getSize m.xva = .ok s →
      ∃ es, reconcileOne env fix mergedJsons j = .ok es ∧
        (∀ a x, Effect.warn (.incorrectBackupSize j a x) ∉ es) ∧
        (Effect.writeFile j (some s) ∈ es ↔
          ((mergedJsons.contains j = true ∨ fix = true) ∧ m.size ≠ some s))) ∧
    (m.mode = "delta" → computeVhdsSize env m.vhds = .ok (some s) →
      ∃ es, reconcileOne env fix mergedJsons j = .ok es ∧
        (Effect.warn (.incorrectBackupSize j m.size s) ∈ es ↔
          (mergedJsons.contains j = false ∧ m.size ≠ some s)) ∧
        (Effect.writeFile j (some s) ∈ es ↔
          ((mergedJsons.contains j = true ∨ fix = true) ∧ m.size ≠ some s))) ∧
    (m.mode = "delta" → computeVhdsSize env m.vhds = .ok none →
      reconcileOne env fix mergedJsons j = .ok []) := by
  refine ⟨?_, ?_, ?_⟩
  · intro hmode hs
    refine ⟨writeStep env fix (mergedJsons.contains j) j m (some s) [], ?_, ?_, ?_⟩
    · simp only [reconcileOne, hmeta, hmode, if_pos, hs]
    · intro a x
      unfold writeStep
      split_ifs with h1 h2 <;> simp
    · unfold writeStep
      split_ifs with h1 h2 <;> simp_all
  · intro hmode hs
    have hmf : m.mode ≠ "full" := by rw [hmode]; decide
    refine ⟨writeStep env fix (mergedJsons.contains j) j m (some s)
      (if !(mergedJsons.contains j) ∧ m.size ≠ some s
       then [Effect.warn (.incorrectBackupSize j m.size s)] else []), ?_, ?_, ?_⟩
    · simp only [reconcileOne, hmeta, hmode, hmf, if_neg, if_pos, hs]
      simp [hmf]
    · unfold writeStep
      split_ifs with h1 h2 h3 h4 h5 <;> simp_all
    · unfold writeStep
      split_ifs with h1 h2 h3 h4 h5 <;> simp_all
  · intro hmode hs
    have hmf : m.mode ≠ "full" := by rw [hmode]; decide
    simp only [reconcileOne, hmeta, hmode, hmf, if_neg, if_pos, hs]
    simp [hmf]

/-- A concrete environment exhibiting a full-mode metadata record at `/j`
whose stored size (50) disagrees with the archive's actual size (100). -/
def envFullMismatch : Env where
  openVhd := fun _ _ => .fail none
  contains := fun _ _ => false
  resolveAlias := id
  isVhdFileName := fun _ => false
  openAliasTargetOk := fun _ => false
  dataFiles := fun _ => []
  normalize := id
  entries := []
  isMetadataFileName := fun _ => false
  isXvaFileName := fun _ => false
  isXvaSumFileName := fun _ => false
  isValidXva := fun _ => true
  readMeta := fun p =>
    if p = "/j" then some { mode := "full", xva := "/x", vhds := [], size := some 50 }
    else none
  getSize := fun _ => .ok 100
  vhdOpenOk := fun _ => true
  isVhdFileKind := fun _ => true
  vhdSize := fun _ => 0
  mergedSize := fun _ => 0
  writeOk := fun _ => true

/-- C6 counterexample: a full-mode record, not merged this run, with
fix-metadata off, whose stored size (50) disagrees with the recomputed
archive size (100): reconciliation emits no effect at all — in particular no
warning — contradicting the claim that a warning is emitted whenever a
non-merged record's recomputed size disagrees with the stored one. -/
theorem cleanVm_full_mode_mismatch_silent :
    envFullMismatch.readMeta "/j" =
      some { mode := "full", xva := "/x", vhds := [], size := some 50 } ∧
    envFullMismatch.getSize "/x" = .ok 100 ∧
    (some 50 : Option Int) ≠ some 100 ∧
    reconcileOne envFullMismatch false [] "/j" = .ok [] := by
  refine ⟨rfl, rfl, by decide, ?_⟩
  rfl

/-! ## Read-only audit mode: no stage mutates the backend. -/

theorem dedupStep_mutFree (env : Env) (st : ScanSt) (p : VPath) (info : VhdInfo)
    (h : MutFree st.trace) : MutFree (dedupStep env st p info).trace := by
  unfold dedupStep
  split
  · exact h
  · split_ifs <;>
      (intro e he
       rcases (by simpa using he) with he2 | he2
       · exact h e he2
       · rcases he2 with rfl | rfl <;> rfl)

theorem checkVhd_mutFree (env : Env) (ik : List VPath) (st : ScanSt) (p : VPath)
    (h : MutFree st.trace) : MutFree (checkVhd env false ik st p).trace := by
  simp only [checkVhd]
  split
  · intro e he
    simp only [and_false, if_false, List.append_nil] at he
    rcases (by simpa using he) with he2 | rfl | rfl
    · exact h e he2
    · rfl
    · rfl
  · split
    · split
      · intro e he
        rcases (by simpa using he) with he2 | rfl | rfl
        · exact h e he2
        · rfl
        · rfl
      · refine dedupStep_mutFree env _ p _ ?_
        intro e he
        rcases (by simpa using he) with he2 | rfl
        · exact h e he2
        · rfl
    · refine dedupStep_mutFree env _ p _ ?_
      intro e he
      rcases (by simpa using he) with he2 | rfl
      · exact h e he2
      · rfl

theorem removeBrokenVhds_mutFree (env : Env) (ik : List VPath)
    (vhds0 : List VPath) : MutFree (removeBrokenVhds env false ik vhds0).trace := by
  unfold removeBrokenVhds
  have hgen : ∀ (l : List VPath) (st : ScanSt), MutFree st.trace →
      MutFree (l.foldl (checkVhd env false ik) st).trace := by
    intro l
    induction l with
    | nil => intro st h; exact h
    | cons v t iht =>
      intro st h
      exact iht _ (checkVhd_mutFree env ik st v h)
  exact hgen vhds0 _ mutFree_nil

theorem checkAliases_mutFree (env : Env) (aliasPaths : List VPath)
    (dataRepo : VPath) : MutFree (checkAliases env false aliasPaths dataRepo) := by
  simp only [checkAliases]
  have hone : ∀ (l : List VPath) (acc : List VPath × List Effect),
      MutFree acc.2 → MutFree (l.foldl (checkAliasOne env false) acc).2 := by
    intro l
    induction l with
    | nil => intro acc h; exact h
    | cons a t iht =>
      intro acc h
      obtain ⟨found, es⟩ := acc
      refine iht _ ?_
      simp only [checkAliasOne]
      split_ifs <;>
        first
        | exact h
        | exact absurd rfl (by assumption : ¬False = False).elim
        | exact (by assumption : False).elim
        | (intro e he
           rcases (by simpa using he) with he2 | rfl
           · exact h e he2
           · rfl)
  have hfiles : ∀ (l : List VPath) (found : List VPath) (acc : List Effect),
      MutFree acc →
      MutFree (l.foldl (fun acc p => if found.contains p then acc
        else acc ++ [.warn (.noAliasRef p)] ++
          (if (false : Bool) then [.unlink p] else [])) acc) := by
    intro l
    induction l with
    | nil => intro found acc h; exact h
    | cons a t iht =>
      intro found acc h
      simp only [List.foldl_cons]
      refine iht found _ ?_
      cases hc : found.contains a
      · simp only [hc, Bool.false_eq_true, if_false]
        intro e he
        rcases (by simpa using he) with he2 | rfl
        · exact h e he2
        · rfl
      · simp only [hc, if_true]
        exact h
  intro e he
  rcases List.mem_append.mp he with he2 | he2
  · exact hone aliasPaths ([], []) mutFree_nil e he2
  · exact hfiles (env.dataFiles dataRepo)
      (List.foldl (checkAliasOne env false) ([], []) aliasPaths).1 []
      mutFree_nil e he2

theorem deleteIfOrphan_mutFree :
    ∀ (n : Nat) (st : OrphanSt) (p : VPath), st.parents.length ≤ n →
      MutFree st.trace → MutFree (deleteIfOrphan false st p).trace := by
  intro n
  induction n with
  | zero =>
    intro st p hlen h
    have h0 : st.parents = [] := List.length_eq_zero.mp (Nat.le_zero.mp hlen)
    have hnone : alookup p st.parents = none := by rw [h0]; rfl
    rw [deleteIfOrphan_none hnone]
    exact h
  | succ n ih =>
    intro st p hlen h
    cases hl : alookup p st.parents with
    | none => rw [deleteIfOrphan_none hl]; exact h
    | some q =>
      rw [deleteIfOrphan_some hl]
      have hlt := aerase_length_lt hl
      set stA : OrphanSt := { st with parents := aerase p st.parents } with hstA
      have hrec := ih stA q
        (by show stA.parents.length ≤ n; simp only [hstA]; omega) h
      set st2 : OrphanSt := deleteIfOrphan false stA q with hst2
      by_cases hqv : st2.vhds.contains q = true
      · rw [if_pos hqv]
        exact hrec
      · rw [if_neg hqv]
        intro e he
        rcases (by simpa using he) with he2 | rfl
        · exact hrec e he2
        · rfl

theorem pruneOrphans_mutFree (parents0 : List (VPath × VPath))
    (vhds : List VPath) : MutFree (pruneOrphans false parents0 vhds).trace := by
  unfold pruneOrphans
  have hgen : ∀ (ks : List VPath) (st : OrphanSt), MutFree st.trace →
      MutFree (ks.foldl (deleteIfOrphan false) st).trace := by
    intro ks
    induction ks with
    | nil => intro st h; exact h
    | cons k t iht =>
      intro st h
      exact iht _ (deleteIfOrphan_mutFree st.parents.length st k (le_refl _) h)
  exact hgen _ _ mutFree_nil

theorem crossRefOne_mutFree (env : Env) (vhds xvas : List VPath) (st : CrossSt)
    (j : VPath) (h : MutFree st.trace) :
    MutFree (crossRefOne env false vhds xvas st j).trace := by
  unfold crossRefOne
  split
  · intro e he
    rcases (by simpa using he) with he2 | rfl
    · exact h e he2
    · rfl
  · split_ifs <;>
      first
      | exact h
      | exact (by assumption : False).elim
      | (intro e he
         rcases (by simpa using he) with he2 | rfl
         · exact h e he2
         · rfl)

theorem crossRef_mutFree (env : Env) (vhds xvas : List VPath) :
    ∀ (l : List VPath) (st : CrossSt), MutFree st.trace →
      MutFree (l.foldl (crossRefOne env false vhds xvas) st).trace := by
  intro l
  induction l with
  | nil => intro st h; exact h
  | cons j t iht =>
    intro st h
    exact iht _ (crossRefOne_mutFree env vhds xvas st j h)

theorem xvaProbe_mutFree (env : Env) :
    ∀ (l : List VPath) (acc : List Effect), MutFree acc →
      MutFree (l.foldl (fun acc x => if env.isValidXva x then acc
        else acc ++ [Effect.warn (.xvaMightBeBroken x)]) acc) := by
  intro l
  induction l with
  | nil => intro acc h; exact h
  | cons x t iht =>
    intro acc h
    simp only [List.foldl_cons]
    refine iht _ ?_
    split_ifs
    · exact h
    · intro e he
      rcases (by simpa using he) with he2 | rfl
      · exact h e he2
      · rfl

theorem getUsed_mutFree (children : VPath → Option VPath) (unused : List VPath) :
    ∀ (fuel : Nat) (st : ChainSt) (v : VPath) (st' : ChainSt) (res : Option Chain),
      MutFree st.trace →
      getUsedChildChainOrDelete children unused false fuel st v = some (st', res) →
      MutFree st'.trace := by
  intro fuel
  induction fuel with
  | zero => intro st v st' res _ heq; exact Option.noConfusion heq
  | succ fuel ih =>
    intro st v st' res h heq
    rw [getUsedChildChainOrDelete] at heq
    split at heq
    · simp only [Option.some.injEq, Prod.mk.injEq] at heq
      obtain ⟨hst, _⟩ := heq
      rw [← hst]
      exact h
    · split at heq
      · simp only [Option.some.injEq, Prod.mk.injEq] at heq
        obtain ⟨hst, _⟩ := heq
        rw [← hst]
        exact h
      · split at heq
        · split at heq
          · exact Option.noConfusion heq
          · rename_i st2 ch hrec
            simp only [Option.some.injEq, Prod.mk.injEq] at heq
            obtain ⟨hst, _⟩ := heq
            rw [← hst]
            exact ih { st with toCheck := st.toCheck.erase v } _ _ _ h hrec
          · rename_i st2 hrec
            simp only [Option.some.injEq, Prod.mk.injEq] at heq
            obtain ⟨hst, _⟩ := heq
            rw [← hst]
            have hm2 := ih { st with toCheck := st.toCheck.erase v } _ _ _ h hrec
            intro e he
            rcases (by simpa [delUnused] using he) with he2 | rfl
            · exact hm2 e he2
            · rfl
        · simp only [Option.some.injEq, Prod.mk.injEq] at heq
          obtain ⟨hst, _⟩ := heq
          rw [← hst]
          intro e he
          rcases (by simpa [delUnused] using he) with he2 | rfl
          · exact h e he2
          · rfl

theorem chainLoop_mutFree (children : VPath → Option VPath) (unused : List VPath)
    (fuel : Nat) :
    ∀ (l : List VPath) (st st2 : ChainSt), MutFree st.trace →
      chainLoop children unused false fuel l st = some st2 →
      MutFree st2.trace := by
  intro l
  induction l with
  | nil =>
    intro st st2 h heq
    cases heq
    exact h
  | cons v t iht =>
    intro st st2 h heq
    rw [chainLoop] at heq
    split at heq
    · split at heq
      · exact Option.noConfusion heq
      · rename_i st1 c hrec
        exact iht { st1 with memo := ainsert v c st1.memo } st2
          (getUsed_mutFree children unused fuel st v st1 c h hrec) heq
    · exact iht st st2 h heq

theorem computeChains_mutFree (children : VPath → Option VPath)
    (unused ik : List VPath) (fuel : Nat) (out : ChainsOut)
    (h : computeChains children unused ik false fuel = some out) :
    MutFree out.trace := by
  rw [computeChains] at h
  split at h
  · exact Option.noConfusion h
  · rename_i st hcl
    simp only [Option.some.injEq] at h
    subst h
    exact chainLoop_mutFree children unused fuel unused _ st mutFree_nil hcl

theorem doMerge_noMerge (env : Env) (remove : Bool) (vj : List (VPath × VPath)) :
    ∀ (l : List Chain) (mj : List VPath) (es : List Effect),
      doMerge env remove false vj l = .ok (mj, es) → mj = [] ∧ es = [] := by
  intro l
  induction l with
  | nil =>
    intro mj es heq
    cases heq
    exact ⟨rfl, rfl⟩
  | cons ch t iht =>
    intro mj es heq
    rw [doMerge] at heq
    split at heq
    · exact Except.noConfusion heq
    · rename_i res es1 hmv
      split at heq
      · exact Except.noConfusion heq
      · rename_i mj2 es2 hrec
        obtain ⟨rfl, rfl⟩ := iht mj2 es2 hrec
        have hres : res = none ∧ es1 = [] := by
          unfold mergeVhdChain at hmv
          split at hmv
          · exact Except.noConfusion hmv
          · simp only [Bool.false_eq_true, if_false, Except.ok.injEq,
              Prod.mk.injEq] at hmv
            exact ⟨hmv.1.symm, hmv.2.symm⟩
        obtain ⟨rfl, rfl⟩ := hres
        simp only [Except.ok.injEq, Prod.mk.injEq] at heq
        obtain ⟨h1, h2⟩ := heq
        constructor
        · rw [← h1]; rfl
        · rw [← h2]; rfl

theorem unusedXva_mutFree :
    ∀ (l : List VPath) (acc : List Effect), MutFree acc →
      MutFree (l.foldl (fun acc x => acc ++ [Effect.warn (.unusedXva x)] ++
        (if (false : Bool) then [.unlink x] else [])) acc) := by
  intro l
  induction l with
  | nil => intro acc h; exact h
  | cons x t iht =>
    intro acc h
    simp only [List.foldl_cons]
    refine iht _ ?_
    intro e he
    rcases (by simpa using he) with he2 | rfl
    · exact h e he2
    · rfl

theorem xvaSums_mutFree (xvas : List VPath) :
    ∀ (l : List VPath) (acc : List Effect), MutFree acc →
      MutFree (l.foldl (fun acc s =>
        if xvas.contains (s.dropRight ".checksum".length) then acc
        else acc ++ [Effect.warn (.unusedXvaChecksum s)] ++
          (if (false : Bool) then [.unlink s] else [])) acc) := by
  intro l
  induction l with
  | nil => intro acc h; exact h
  | cons x t iht =>
    intro acc h
    simp only [List.foldl_cons]
    refine iht _ ?_
    cases hc : xvas.contains (x.dropRight ".checksum".length)
    · simp only [hc, Bool.false_eq_true, if_false]
      intro e he
      rcases (by simpa using he) with he2 | rfl
      · exact h e he2
      · rfl
    · simp only [hc, if_true]
      exact h

theorem reconcileOne_mutFree (env : Env) (j : VPath) (es : List Effect)
    (h : reconcileOne env false [] j = .ok es) : MutFree es := by
  unfold reconcileOne at h
  split at h
  · exact Except.noConfusion h
  · rename_i m hm
    have hws : ∀ fs es0, MutFree es0 →
        MutFree (writeStep env false (([] : List VPath).contains j) j m fs es0) := by
      intro fs es0 h0
      unfold writeStep
      split
      · rename_i hcond
        rcases hcond.1 with h2 | h2
        · exact Bool.noConfusion h2
        · exact Bool.noConfusion h2
      · exact h0
    split_ifs at h
    · split at h
      · simp only [Except.ok.injEq] at h
        subst h
        intro e he
        have he2 : e = Effect.warn (Warn.failedToGetSize j) := by simpa using he
        rw [he2]
        rfl
      · simp only [Except.ok.injEq] at h
        subst h
        exact hws _ _ mutFree_nil
    · split at h
      · simp only [Except.ok.injEq] at h
        subst h
        intro e he
        have he2 : e = Effect.warn (Warn.failedToGetSize j) := by simpa using he
        rw [he2]
        rfl
      · simp only [Except.ok.injEq] at h
        subst h
        exact mutFree_nil
      · simp only [Except.ok.injEq] at h
        subst h
        refine hws _ _ ?_
        split_ifs
        · intro e he
          rw [List.mem_singleton.mp he]
          rfl
        · exact mutFree_nil
    · simp only [Except.ok.injEq] at h
      subst h
      exact hws _ _ mutFree_nil

theorem reconcile_mutFree (env : Env) :
    ∀ (l : List VPath) (es : List Effect),
      reconcile env false [] l = .ok es → MutFree es := by
  intro l
  induction l with
  | nil =>
    intro es heq
    cases heq
    exact mutFree_nil
  | cons j t iht =>
    intro es heq
    rw [reconcile] at heq
    split at heq
    · exact Except.noConfusion heq
    · rename_i es1 h1
      split at heq
      · exact Except.noConfusion heq
      · rename_i es2 h2
        simp only [Except.ok.injEq] at heq
        subst heq
        exact mutFree_append (reconcileOne_mutFree env j es1 h1) (iht es2 h2)

theorem foldl_append_mutFree {β : Type} (g : β → List Effect)
    (hg : ∀ b, MutFree (g b)) :
    ∀ (l : List β) (acc : List Effect), MutFree acc →
      MutFree (l.foldl (fun acc b => acc ++ g b) acc) := by
  intro l
  induction l with
  | nil => intro acc h; exact h
  | cons b t iht =>
    intro acc h
    simp only [List.foldl_cons]
    exact iht _ (mutFree_append h (hg b))

/-- C1: with repair, merge and fix-metadata all disabled, a whole `cleanVm`
run issues no unlink, no write and no merge (hence no rename — the only
rename in the pipeline lives inside the external merge) against the storage
backend, in any stage including checkAliases; and the returned summary's
merge flag is true exactly when at least one mergeable chain was computed. -/
theorem cleanVm_readonly_audit (env : Env) (vhds0 : List VPath)
    (interrupted0 : List (VPath × VPath)) (aliasDirs : List (VPath × List VPath))
    (fuel : Nat) (r : CleanResult)
    (h : cleanVm env vhds0 interrupted0 aliasDirs false false false fuel = .ok r) :
    MutFree r.trace ∧ (r.summaryMerge = true ↔ r.toMerge ≠ []) := by
  simp only [cleanVm] at h
  split at h
  · exact Except.noConfusion h
  · rename_i chains hcc
    split at h
    · exact Except.noConfusion h
    · rename_i mj esM hdm
      split at h
      · exact Except.noConfusion h
      · rename_i esR hrec
        simp only [Except.ok.injEq] at h
        subst h
        obtain ⟨hmjnil, hesnil⟩ := doMerge_noMerge env false _ _ mj esM hdm
        constructor
        · refine mutFree_append (mutFree_append (mutFree_append (mutFree_append
            (mutFree_append (mutFree_append (mutFree_append (mutFree_append
            (mutFree_append (mutFree_append ?_ ?_) ?_) ?_) ?_) ?_) ?_) ?_) ?_)
            ?_) ?_
          · exact removeBrokenVhds_mutFree env _ vhds0
          · exact cis_mutFree _ interrupted0
          · exact foldl_append_mutFree _
              (fun d => checkAliases_mutFree env d.2 (d.1 ++ "/data")) aliasDirs
              [] mutFree_nil
          · exact pruneOrphans_mutFree _ _
          · exact xvaProbe_mutFree env _ [] mutFree_nil
          · exact crossRef_mutFree env _ _ _ _ mutFree_nil
          · exact computeChains_mutFree _ _ _ fuel chains hcc
          · rw [hesnil]; exact mutFree_nil
          · exact unusedXva_mutFree _ [] mutFree_nil
          · exact xvaSums_mutFree _ _ [] mutFree_nil
          · rw [hmjnil] at hrec
            exact reconcile_mutFree env _ esR hrec
        · simp only [ne_eq, ← List.length_eq_zero]
          cases chains.toMerge.length <;> simp

/-! ## Concrete instances used by the witnesses. -/

/-- A minimal repository with one healthy, unused, childless VHD. -/
def envAudit : Env where
  openVhd := fun _ _ => .ok { uuid := "u", isDifferencing := false, parent := "" }
  contains := fun _ _ => false
  resolveAlias := id
  isVhdFileName := fun _ => true
  openAliasTargetOk := fun _ => true
  dataFiles := fun _ => []
  normalize := id
  entries := []
  isMetadataFileName := fun _ => false
  isXvaFileName := fun _ => false
  isXvaSumFileName := fun _ => false
  isValidXva := fun _ => true
  readMeta := fun _ => none
  getSize := fun _ => .ok 0
  vhdOpenOk := fun _ => true
  isVhdFileKind := fun _ => true
  vhdSize := fun _ => 0
  mergedSize := fun _ => 0
  writeOk := fun _ => true

/-- The result of the read-only audit run on `envAudit`. -/
def auditResult : CleanResult where
  trace := [.openSecond "/a" true, .warn (.unusedVhd "/a")]
  toMerge := []
  summaryMerge := false
  vhds := ["/a"]

/-- C1 witness: the audit run on a one-disk repository issues only an open
event and a warning, and reports no merge. -/
theorem cleanVm_readonly_audit_witness :
    MutFree auditResult.trace ∧
    (auditResult.summaryMerge = true ↔ auditResult.toMerge ≠ []) :=
  cleanVm_readonly_audit envAudit ["/a"] [] [] 3 auditResult (by rfl)

/-- An environment whose VHD open always fails with the assertion code. -/
def envOpenFail : Env :=
  { envAudit with openVhd := fun _ _ => .fail (some "ERR_ASSERTION") }

/-- C7 witness: a disk with a pending merge state is opened without the
second-footer check, dropped from the active set, and — the failure being an
assertion error under repair — its file deletion is issued. -/
theorem cleanVm_open_failure_witness :
    (Effect.openSecond "/x" false ∈
      (checkVhd envOpenFail true ["/x"]
        { vhds := ["/x"], vhdParents := [], vhdChildren := [], vhdById := [],
          trace := [] } "/x").trace ↔ false = !((["/x"] : List VPath).contains "/x")) ∧
    "/x" ∉ (checkVhd envOpenFail true ["/x"]
      { vhds := ["/x"], vhdParents := [], vhdChildren := [], vhdById := [],
        trace := [] } "/x").vhds ∧
    (Effect.unlink "/x" ∈ (checkVhd envOpenFail true ["/x"]
      { vhds := ["/x"], vhdParents := [], vhdChildren := [], vhdById := [],
        trace := [] } "/x").trace ↔
      (some "ERR_ASSERTION" = some errAssertion ∧ true = true)) := by
  have h := cleanVm_open_failure envOpenFail true ["/x"]
    { vhds := ["/x"], vhdParents := [], vhdChildren := [], vhdById := [],
      trace := [] } "/x" (some "ERR_ASSERTION") rfl (by decide) rfl
  exact ⟨h.1 false, h.2.1, h.2.2⟩

/-- An environment whose every VHD opens as a differencing disk whose parent
resolves to `/par`. -/
def envConflict : Env :=
  { envAudit with
      openVhd := fun _ _ => .ok { uuid := "u", isDifferencing := true, parent := "/par" } }

/-- C8 witness: a second child of `/par` triggers the conflict, which is
logged naming both children; neither file deletion is issued even under
repair; the first child stays registered. -/
theorem cleanVm_multiple_children_conflict_witness :
    Effect.warn (.vhdCheckError "/b" (.conflict "/par" "/c1" "/b")) ∈
      (checkVhd envConflict true []
        { vhds := ["/b"], vhdParents := [], vhdChildren := [("/par", "/c1")],
          vhdById := [], trace := [] } "/b").trace ∧
    Effect.unlink "/b" ∉ (checkVhd envConflict true []
      { vhds := ["/b"], vhdParents := [], vhdChildren := [("/par", "/c1")],
        vhdById := [], trace := [] } "/b").trace ∧
    Effect.unlink "/c1" ∉ (checkVhd envConflict true []
      { vhds := ["/b"], vhdParents := [], vhdChildren := [("/par", "/c1")],
        vhdById := [], trace := [] } "/b").trace ∧
    alookup "/par" (checkVhd envConflict true []
      { vhds := ["/b"], vhdParents := [], vhdChildren := [("/par", "/c1")],
        vhdById := [], trace := [] } "/b").vhdChildren = some "/c1" ∧
    alookup "/b" (checkVhd envConflict true []
      { vhds := ["/b"], vhdParents := [], vhdChildren := [("/par", "/c1")],
        vhdById := [], trace := [] } "/b").vhdParents = some "/par" ∧
    "/b" ∉ (checkVhd envConflict true []
      { vhds := ["/b"], vhdParents := [], vhdChildren := [("/par", "/c1")],
        vhdById := [], trace := [] } "/b").vhds := by
  have h := cleanVm_multiple_children_conflict envConflict true []
    { vhds := ["/b"], vhdParents := [], vhdChildren := [("/par", "/c1")],
      vhdById := [], trace := [] } "/b" "/c1"
    { uuid := "u", isDifferencing := true, parent := "/par" }
    rfl (by decide) rfl rfl rfl
  exact ⟨h.1, h.2.1 "/b", h.2.1 "/c1", h.2.2.1, h.2.2.2.1, h.2.2.2.2⟩

/-- An environment where every open yields the UUID `u` and `/a`'s content
contains `/b`'s. -/
def envDedup : Env :=
  { envAudit with
      openVhd := fun _ _ => .ok { uuid := "u", isDifferencing := false, parent := "" },
      contains := fun a b => a == "/a" && b == "/b" }

/-- C5 witness: with `/a` already indexed under `u` and containing all of
`/b`'s data, validating `/b` removes `/b` from the active set and keeps `/a`
indexed. -/
theorem cleanVm_uuid_dedup_witness :
    "/b" ∉ (checkVhd envDedup false []
      { vhds := ["/a", "/b"], vhdParents := [], vhdChildren := [],
        vhdById := [("u", "/a")], trace := [] } "/b").vhds ∧
    "/a" ∈ (checkVhd envDedup false []
      { vhds := ["/a", "/b"], vhdParents := [], vhdChildren := [],
        vhdById := [("u", "/a")], trace := [] } "/b").vhds ∧
    alookup "u" (checkVhd envDedup false []
      { vhds := ["/a", "/b"], vhdParents := [], vhdChildren := [],
        vhdById := [("u", "/a")], trace := [] } "/b").vhdById = some "/a" := by
  have h := cleanVm_uuid_dedup envDedup false []
    { vhds := ["/a", "/b"], vhdParents := [], vhdChildren := [],
      vhdById := [("u", "/a")], trace := [] } "/b" "/a"
    { uuid := "u", isDifferencing := false, parent := "" }
    rfl (fun hd => absurd hd (by decide)) rfl (by decide) (by decide)
    (by decide) (by decide)
  exact h.1 rfl

/-- C9 witness: the sole interrupted-merge entry covers a missing VHD, so it
is dropped and its state file deletion is issued under repair. -/
theorem cleanVm_orphan_merge_states_witness :
    (("/k", "/s") ∉ (cleanInterruptedStates true [] [("/k", "/s")]).1) ∧
    Effect.unlink "/s" ∈ (cleanInterruptedStates true [] [("/k", "/s")]).2 := by
  have h := cleanVm_orphan_merge_states true [] [("/k", "/s")] "/k" "/s"
    (by decide)
  exact ⟨(h.1 rfl).1 "/s", (h.1 rfl).2.1 rfl⟩

/-- C3 witness: the unused disk `/A` with used child `/B` computes the chain
`[/A, /B]`; the unused childless disk `/C` computes no chain and its
deletion is issued under repair. -/
theorem cleanVm_chain_computation_witness :
    ((some [some "/A", some "/B"] : Option Chain) =
      some ((("/A" :: ([] : List VPath)) ++ ["/B"]).map some)) ∧
    ((none : Option Chain) = none ∧
      (Effect.unlink "/C" ∈
        ([Effect.warn (.unusedVhd "/C"), Effect.unlink "/C"] : List Effect) ↔
        true = true)) := by
  constructor
  · exact cleanVm_chain_computation.1
      (fun p => if p = "/A" then some "/B" else none) ["/A"] false 3
      { memo := [], toCheck := ["/A"], trace := [] } "/A" "/B" []
      { memo := [], toCheck := [], trace := [] } (some [some "/A", some "/B"])
      ⟨List.nodup_nil, fun x c hx => Option.noConfusion hx⟩
      (by simp) (by decide) (by decide) (by decide)
  · exact cleanVm_chain_computation.2
      (fun _ => none) ["/C"] true 2
      { memo := [], toCheck := ["/C"], trace := [] } "/C"
      { memo := [], toCheck := [],
        trace := [Effect.warn (.unusedVhd "/C"), Effect.unlink "/C"] } none
      rfl rfl (by decide) rfl (by decide)

/-- C4 witness: the interrupted parent `/p`, which has no registered child,
receives the forced chain `[undefined, /p]` in the merge set. -/
theorem cleanVm_interrupted_forces_chain_witness :
    alookup "/p" [("/p", some ([none, some "/p"] : Chain))] =
      some (some [none, some "/p"]) ∧
    ([none, some "/p"] : Chain) ∈ [([none, some "/p"] : Chain)] := by
  have h := cleanVm_interrupted_forces_chain (fun _ => none) [] ["/p"] false 1
    { memo := [("/p", some [none, some "/p"])],
      toMerge := [[none, some "/p"]], trace := [] }
    (by decide) "/p" (by decide)
  exact h

/-- C10 witness: the forced chain of the C4 scenario has length two and
passes the mergeVhdChain assertion. -/
theorem cleanVm_merge_chains_length_witness :
    2 ≤ ([none, some "/p"] : Chain).length ∧
    (mergeVhdChain envAudit true true [none, some "/p"]).isOk = true := by
  have h := cleanVm_merge_chains_length (fun _ => none) [] ["/p"] false 1
    { memo := [("/p", some [none, some "/p"])],
      toMerge := [[none, some "/p"]], trace := [] }
    (by decide) [none, some "/p"] (by decide)
  exact ⟨h.1, h.2 envAudit true true⟩

/-- C6 witness: on the concrete full-mode environment with a non-merged
size mismatch and fix-metadata off, reconciliation emits neither the
incorrect-size warning nor a write. -/
theorem cleanVm_size_reconciliation_witness :
    Effect.warn (.incorrectBackupSize "/j" (some 50) 100) ∉ ([] : List Effect) ∧
    (Effect.writeFile "/j" (some 100) ∈ ([] : List Effect) ↔
      ((([] : List VPath).contains "/j" = true ∨ false = true) ∧
        (some 50 : Option Int) ≠ some 100)) := by
  have h := cleanVm_size_reconciliation envFullMismatch false [] "/j"
    { mode := "full", xva := "/x", vhds := [], size := some 50 } 100 rfl
  obtain ⟨es, hes, hwarn, hwrite⟩ := h.1 rfl rfl
  have heq : (Except.ok es : Except Unit (List Effect)) = .ok [] :=
    hes.symm.trans (by rfl)
  have hes2 : es = [] := by injection heq
  subst hes2
  exact ⟨hwarn (some 50) 100, hwrite⟩
